import Mathlib

/-!
Verification of the Optiflow stroke/keyframe core (src/opticalflow.py).

The Python floats are embedded as exact rationals.  Mutable attributes of
the OptiflowApp object that the verified operations touch are collected in
an explicit state record, and each Python method becomes a state-passing
function translated statement by statement from the source.
-/

namespace Optiflow

/-- A point of the drawing canvas, an (x, y) pair (Python float pair). -/
abbrev Point : Type := ℚ × ℚ

/-- A stroke: the ordered list of its points. -/
abbrev Stroke : Type := List Point

/-- A frame: the ordered list of its strokes. -/
abbrev Frame : Type := List Stroke

/-- The keyframes dictionary keyed by integer frame number, embedded as an
association list in insertion order. -/
abbrev KMap : Type := List (Int × Frame)

/-- Dictionary write: overwrite the entry for k in place if present, else
append a new entry (Python dict assignment keeps insertion order). -/
def kset : KMap → Int → Frame → KMap
  | [], k, v => [(k, v)]
  | e :: tl, k, v => if e.1 = k then (k, v) :: tl else e :: kset tl k v

/-- Dictionary read. -/
def kget : KMap → Int → Option Frame
  | [], _ => none
  | e :: tl, k => if e.1 = k then some e.2 else kget tl k

/-- Dictionary delete (del keyframes[k]). -/
def kdel : KMap → Int → KMap
  | [], _ => []
  | e :: tl, k => if e.1 = k then tl else e :: kdel tl k

/-- The application state touched by the modelled operations: keyframes,
current_keyframe, strokes (the Working Buffer), the undo history stack,
the redo stack and the erase_state_saved flag. -/
structure AppState where
  keyframes : KMap
  currentKeyframe : Int
  strokes : Frame
  history : List Frame
  redoStack : List Frame
  eraseStateSaved : Bool
deriving DecidableEq

/-- self.max_history = 50. -/
def max_history : ℕ := 50

/-- save_state: append a deep copy of the Working Buffer to the history
stack, drop the oldest entry when the bound is exceeded, clear redo. -/
def save_state (s : AppState) : AppState :=
  let h := s.history ++ [s.strokes]
  { s with
    history := if max_history < h.length then h.drop 1 else h
    redoStack := [] }

/-- undo: when more than the baseline entry is present, pop the top entry
onto the redo stack and restore the buffer from the new top entry.  The
final redraw_canvas resets the erase_state_saved flag. -/
def undo (s : AppState) : AppState :=
  if s.history.length ≤ 1 then s
  else
    let popped := s.history.getLastD []
    let h := s.history.dropLast
    { s with
      redoStack := s.redoStack ++ [popped]
      history := h
      strokes := h.getLastD []
      eraseStateSaved := false }

/-- redo: when the redo stack is nonempty, pop its top entry, push the
current buffer onto history and restore the buffer from the popped entry.
The final redraw_canvas resets the erase_state_saved flag. -/
def redo (s : AppState) : AppState :=
  if s.redoStack.isEmpty then s
  else
    let redoState := s.redoStack.getLastD []
    { s with
      redoStack := s.redoStack.dropLast
      history := s.history ++ [s.strokes]
      strokes := redoState
      eraseStateSaved := false }

/-- end_stroke, pencil branch while drawing, with cur the accumulated
current_stroke: a stroke of more than one point is appended to the buffer,
the buffer is copied into the current keyframe entry and save_state runs;
shorter accumulators are discarded.  erase_state_saved is reset. -/
def end_stroke (s : AppState) (cur : Stroke) : AppState :=
  if 1 < cur.length then
    let strokes := s.strokes ++ [cur]
    save_state { s with
      strokes := strokes
      keyframes := kset s.keyframes s.currentKeyframe strokes
      eraseStateSaved := false }
  else { s with eraseStateSaved := false }

/-- load_keyframe(frame_num): save the buffer into the entry of
self.current_keyframe when that differs from frame_num and the buffer is
nonempty, load the target entry (or an empty list) into the buffer, make
frame_num current, and reset history to that single loaded entry with an
empty redo stack.  The redraw resets erase_state_saved. -/
def load_keyframe (s : AppState) (frameNum : Int) : AppState :=
  let s :=
    if s.currentKeyframe ≠ frameNum ∧ s.strokes ≠ [] then
      { s with keyframes := kset s.keyframes s.currentKeyframe s.strokes }
    else s
  let loaded := (kget s.keyframes frameNum).getD []
  { s with
    strokes := loaded
    currentKeyframe := frameNum
    history := [loaded]
    redoStack := []
    eraseStateSaved := false }

/-- set_keyframe with a successfully parsed entry value frameNum:
reassigns current_keyframe, copies the buffer into the previous entry when
the frame changed, then save_keyframe_with_background copies the buffer
into the entry of the new current keyframe, and finally the new frame is
loaded when it differs from the previous one. -/
def set_keyframe (s : AppState) (frameNum : Int) : AppState :=
  let prevFrame := s.currentKeyframe
  let s := { s with currentKeyframe := frameNum }
  let s :=
    if prevFrame ≠ frameNum then
      { s with keyframes := kset s.keyframes prevFrame s.strokes }
    else s
  let s := { s with keyframes := kset s.keyframes s.currentKeyframe s.strokes }
  if prevFrame ≠ frameNum then load_keyframe s frameNum else s

/-- next_keyframe: increment current_keyframe and load it. -/
def next_keyframe (s : AppState) : AppState :=
  let s := { s with currentKeyframe := s.currentKeyframe + 1 }
  load_keyframe s s.currentKeyframe

/-- prev_keyframe: decrement current_keyframe and load it, floored at 1. -/
def prev_keyframe (s : AppState) : AppState :=
  if 1 < s.currentKeyframe then
    let s := { s with currentKeyframe := s.currentKeyframe - 1 }
    load_keyframe s s.currentKeyframe
  else s

/-- clear_canvas(save_history): optionally snapshot, empty the buffer,
delete the current keyframe entry, optionally snapshot the cleared state.
The redraw resets erase_state_saved. -/
def clear_canvas (s : AppState) (saveHistory : Bool) : AppState :=
  let s := if saveHistory ∧ s.strokes ≠ [] then save_state s else s
  let s := { s with strokes := [], eraseStateSaved := false }
  let s := { s with keyframes := kdel s.keyframes s.currentKeyframe }
  if saveHistory then save_state s else s

/-- The state right after OptiflowApp.__init__, which ends with one
save_state call on the empty buffer. -/
def initState : AppState :=
  { keyframes := []
    currentKeyframe := 1
    strokes := []
    history := [[]]
    redoStack := []
    eraseStateSaved := false }

/-- Python int() applied to a float value: truncation toward zero. -/
def pyInt (q : ℚ) : Int := q.num.tdiv q.den

/-- The inbetween slot index of interpolate_frames, iteration i:
int(start + i * (end - start) / (num_inbetweens + 1)). -/
def interpIndex (startFrame endFrame : Int) (numInbetweens : ℕ) (i : ℕ) : Int :=
  pyInt ((startFrame : ℚ) +
    (i : ℚ) * ((endFrame : ℚ) - (startFrame : ℚ)) / ((numInbetweens : ℚ) + 1))

/-- interpolate_frames with successfully parsed field values, the flow
engine abstracted as a function from the two stroke sets and the factor to
the synthesized stroke list (optical_flow_interpolate returns an empty
list on both of its failure paths).  The buffer is snapshotted first when
nonempty; when either keyframe is missing the run stops with an error
message; otherwise, for i = 1..n, the engine output at factor i/(n+1) is
stored under the truncated index interpIndex, the loop touching only the
keyframes dictionary.  The two input stroke lists are read once before
the loop, as in the source. -/
def interpolate_frames (engine : Frame → Frame → ℚ → Frame) (s : AppState)
    (startFrame endFrame : Int) (numInbetweens : ℕ) : AppState :=
  let s := if s.strokes ≠ [] then save_state s else s
  if (kget s.keyframes startFrame).isNone ∨ (kget s.keyframes endFrame).isNone then s
  else
    let startStrokes := (kget s.keyframes startFrame).getD []
    let endStrokes := (kget s.keyframes endFrame).getD []
    { s with
      keyframes :=
        (List.range numInbetweens).foldl
          (fun m i0 =>
            let i : ℕ := i0 + 1
            let factor : ℚ := (i : ℚ) / ((numInbetweens : ℚ) + 1)
            kset m (interpIndex startFrame endFrame numInbetweens i)
              (engine startStrokes endStrokes factor))
          s.keyframes }

/-- paste_strokes after a successful clipboard fetch and JSON decode.  The
decoded payload is a list of entries; an entry is none when it is not a
list (it is skipped), else the list of its points, a point being none when
its coordinates failed numeric conversion (it is skipped).  Filtered
strokes that keep more than one point are appended to the buffer, then
save_state runs and the redraw resets erase_state_saved. -/
def paste_strokes (s : AppState) (payload : List (Option (List (Option Point)))) :
    AppState :=
  let processed := payload.filterMap (fun e =>
    match e with
    | none => none
    | some pts =>
      let ns := pts.filterMap id
      if 1 < ns.length then some ns else none)
  if processed ≠ [] then
    save_state { s with strokes := s.strokes ++ processed, eraseStateSaved := false }
  else s

/-- Eraser point test: the source compares the float sqrt distance with the
radius; with exact arithmetic this is the squared comparison. -/
def inRadius (cx cy r : ℚ) (p : Point) : Bool :=
  decide ((p.1 - cx) ^ 2 + (p.2 - cy) ^ 2 ≤ r ^ 2)

/-- eraser_size 20, eraser_radius = eraser_size / 2. -/
def eraser_radius : ℚ := 10

/-- points_to_remove: the (ascending) indices of the points inside the
eraser circle, as collected by the enumerate loop of erase_at_point. -/
def markedIdx (mk : Point → Bool) : Stroke → List ℕ
  | [] => []
  | p :: ps => (if mk p then [0] else []) ++ (markedIdx mk ps).map (fun i => i + 1)

/-- The range-merging loop of erase_at_point: cur is the (start, end) pair
being grown, the argument list the remaining removal indices. -/
def toRangesAux (cur : ℕ × ℕ) : List ℕ → List (ℕ × ℕ)
  | [] => [cur]
  | x :: xs =>
    if x = cur.2 + 1 then toRangesAux (cur.1, x) xs
    else cur :: toRangesAux (x, x) xs

/-- Merge a nonempty sorted index list into maximal consecutive ranges. -/
def toRanges : List ℕ → List (ℕ × ℕ)
  | [] => []
  | x :: xs => toRangesAux (x, x) xs

/-- Python slice stroke[a:b]. -/
def pySlice (stroke : Stroke) (a b : ℕ) : Stroke := (stroke.drop a).take (b - a)

/-- The segment-collection loop of erase_at_point: for each deletion range
the slice strictly before it is kept when it has more than one point, and
the slice after the last range is treated the same way.  lastEnd starts
at -1 as in the source. -/
def segsAux (stroke : Stroke) : Int → List (ℕ × ℕ) → List Stroke
  | lastEnd, [] =>
    if lastEnd < (stroke.length : Int) - 1 then
      let seg := stroke.drop (lastEnd + 1).toNat
      if 1 < seg.length then [seg] else []
    else []
  | lastEnd, (a, b) :: rs =>
    (if lastEnd + 1 < (a : Int) then
      let seg := pySlice stroke (lastEnd + 1).toNat a
      if 1 < seg.length then [seg] else []
    else []) ++ segsAux stroke (b : Int) rs

/-- The per-stroke effect of erase_at_point: a stroke with no marked point
passes through whole, else it is replaced by its kept sub-segments. -/
def eraseStrokeOne (mk : Point → Bool) (stroke : Stroke) : List Stroke :=
  match markedIdx mk stroke with
  | [] => [stroke]
  | x :: xs => segsAux stroke (-1) (toRanges (x :: xs))

/-- erase_at_point(canvas_x, canvas_y): snapshot on the first application
of a drag, split every stroke, and, when any stroke had any point at all
(the source sets modified inside the per-point loop unconditionally),
replace the buffer, sync it to the current keyframe and redraw, which
resets erase_state_saved. -/
def erase_at_point (s0 : AppState) (cx cy : ℚ) : AppState :=
  let s :=
    if !s0.eraseStateSaved then { save_state s0 with eraseStateSaved := true } else s0
  let modified := s.strokes.any (fun st => !st.isEmpty)
  let newStrokes := (s.strokes.map (eraseStrokeOne (inRadius cx cy eraser_radius))).flatten
  if modified then
    { s with
      strokes := newStrokes
      keyframes := kset s.keyframes s.currentKeyframe newStrokes
      eraseStateSaved := false }
  else s

/-- is_valid_intersection: the candidate (x, y) lies in the bounding box of
the segment and within tolerance 0.1 of one of the four boundary lines. -/
abbrev cbiValid (W H x1 y1 x2 y2 x y : ℚ) : Prop :=
  (min x1 x2 ≤ x ∧ x ≤ max x1 x2 ∧ min y1 y2 ≤ y ∧ y ≤ max y1 y2) ∧
    (|x - 0| < 1/10 ∨ |x - W| < 1/10 ∨ |y - 0| < 1/10 ∨ |y - H| < 1/10)

/-- The left-edge (x = 0) candidate list of calculate_boundary_intersection,
from the implicit line a x + b y + c = 0 of the segment. -/
def leftIntersection (W H x1 y1 x2 y2 : ℚ) : List Point :=
  let a := y2 - y1
  let b := x1 - x2
  let c := x2 * y1 - x1 * y2
  if 1/10000 < |b| then
    let yLeft := (-c - a * 0) / b
    if 0 ≤ yLeft ∧ yLeft ≤ H ∧ cbiValid W H x1 y1 x2 y2 0 yLeft then [(0, yLeft)]
    else []
  else []

/-- The right-edge (x = W) candidate list. -/
def rightIntersection (W H x1 y1 x2 y2 : ℚ) : List Point :=
  let a := y2 - y1
  let b := x1 - x2
  let c := x2 * y1 - x1 * y2
  if 1/10000 < |b| then
    let yRight := (-c - a * W) / b
    if 0 ≤ yRight ∧ yRight ≤ H ∧ cbiValid W H x1 y1 x2 y2 W yRight then [(W, yRight)]
    else []
  else []

/-- The top-edge (y = 0) candidate list. -/
def topIntersection (W H x1 y1 x2 y2 : ℚ) : List Point :=
  let a := y2 - y1
  let b := x1 - x2
  let c := x2 * y1 - x1 * y2
  if 1/10000 < |a| then
    let xTop := (-c - b * 0) / a
    if 0 ≤ xTop ∧ xTop ≤ W ∧ cbiValid W H x1 y1 x2 y2 xTop 0 then [(xTop, 0)]
    else []
  else []

/-- The bottom-edge (y = H) candidate list. -/
def bottomIntersection (W H x1 y1 x2 y2 : ℚ) : List Point :=
  let a := y2 - y1
  let b := x1 - x2
  let c := x2 * y1 - x1 * y2
  if 1/10000 < |a| then
    let xBottom := (-c - b * H) / a
    if 0 ≤ xBottom ∧ xBottom ≤ W ∧ cbiValid W H x1 y1 x2 y2 xBottom H then
      [(xBottom, H)]
    else []
  else []

/-- calculate_boundary_intersection for the rectangle with corners (0, 0)
and (W, H), W and H the display width and height.  Candidates are
collected edge by edge in source order, and with two or more candidates a
stable ascending sort by the dot product with the motion vector keeps the
first candidate when the motion leaves the canvas and the last when it
enters it. -/
def calculate_boundary_intersection (W H x1 y1 x2 y2 : ℚ) : List Point :=
  let a := y2 - y1
  let b := x1 - x2
  if |a| < 1/10000 ∧ |b| < 1/10000 then []
  else
    let inters := leftIntersection W H x1 y1 x2 y2 ++ rightIntersection W H x1 y1 x2 y2
      ++ topIntersection W H x1 y1 x2 y2 ++ bottomIntersection W H x1 y1 x2 y2
    if 1 < inters.length then
      let dx := x2 - x1
      let dy := y2 - y1
      let sorted := inters.mergeSort (fun p q =>
        dx * (p.1 - x1) + dy * (p.2 - y1) ≤ dx * (q.1 - x1) + dy * (q.2 - y1))
      if ¬(0 ≤ x2 ∧ x2 < W ∧ 0 ≤ y2 ∧ y2 < H) then [sorted.headD (0, 0)]
      else [sorted.getLastD (0, 0)]
    else inters

/-- Squared distance between two canvas points measured at display scale
sz = scale_factor * zoom_factor. -/
def displayDist2 (sz : ℚ) (p q : Point) : ℚ :=
  (p.1 * sz - q.1 * sz) ^ 2 + (p.2 * sz - q.2 * sz) ^ 2

/-- The linear interpolation last + (cur - last) * i / numPoints used for
the synthetic fast-motion points. -/
def lerpPt (last cur : Point) (numPoints : ℕ) (i : ℕ) : Point :=
  (last.1 + (cur.1 - last.1) * (i : ℚ) / (numPoints : ℚ),
   last.2 + (cur.2 - last.2) * (i : ℚ) / (numPoints : ℚ))

/-- The synthetic points of one fast-motion interpolation, Python
range(1, num_points) with t = i / num_points, in canvas coordinates. -/
def insertedPoints (last cur : Point) (numPoints : ℕ) : List Point :=
  ((List.range numPoints).drop 1).map (lerpPt last cur numPoints)

/-- The points one continue_stroke pencil move appends to the accumulator
when both samples are inside the canvas, no boundary is crossed and a last
point exists: the synthetic points when the display-scale spacing exceeds
max_spacing = 10, then the current point regardless.  numPoints stands for
the Python int(spacing / max_spacing); spacing being a float square root,
the embedding receives numPoints together with its defining bounds
(10 numPoints)^2 <= spacing^2 < (10 (numPoints + 1))^2 as hypotheses. -/
def continue_stroke_pencil (sz : ℚ) (last cur : Point) (numPoints : ℕ) : List Point :=
  (if 100 < displayDist2 sz last cur then insertedPoints last cur numPoints else [])
    ++ [cur]

/-- The cumulative length list of _find_point_at_param, starting at 0.
norm is the segment-length function; the source uses the float Euclidean
norm, which the rational embedding keeps abstract. -/
def cumLengths (norm : Point → Point → ℚ) (stroke : Stroke) : List ℚ :=
  (stroke.zip (stroke.drop 1)).foldl
    (fun acc pq => acc ++ [acc.getLastD 0 + norm pq.1 pq.2]) [0]

/-- The segment-search loop of _find_point_at_param over consecutive
normalized lengths paired with consecutive stroke points. -/
def fpapScan (t : ℚ) : List ((ℚ × ℚ) × (Point × Point)) → Option Point
  | [] => none
  | ((l0, l1), (p0, p1)) :: rest =>
    if l0 ≤ t ∧ t < l1 then
      let segT := if l0 < l1 then (t - l0) / (l1 - l0) else 0
      some (p0.1 + segT * (p1.1 - p0.1), p0.2 + segT * (p1.2 - p0.2))
    else fpapScan t rest

/-- _find_point_at_param: the point at fractional arc length t along the
stroke, first point for t <= 0, last for t >= 1, last as fallback. -/
def find_point_at_param (norm : Point → Point → ℚ) (stroke : Stroke) (t : ℚ) :
    Point :=
  if t ≤ 0 then stroke.headD (0, 0)
  else if 1 ≤ t then stroke.getLastD (0, 0)
  else
    let lengths := cumLengths norm stroke
    let total := lengths.getLastD 0
    let lengths := if 0 < total then lengths.map (fun l => l / total) else lengths
    (fpapScan t ((lengths.zip (lengths.drop 1)).zip
        (stroke.zip (stroke.drop 1)))).getD (stroke.getLastD (0, 0))

/-- Modelled from the spec: the raster snap step of stroke reconstruction.
The source thresholds the warped OpenCV raster and searches a radius-5
pixel neighborhood around the blended point for foreground pixels; that
external raster data is abstracted as the oracle snap, whose some answer
is the neighborhood centroid mapped back to canvas coordinates.  The
0.7 / 0.3 stability blend applied to the answer follows the source. -/
def blendSnap (snap : Point → Option Point) (p : Point) : Point :=
  match snap p with
  | some adj => (7/10 * adj.1 + 3/10 * p.1, 7/10 * adj.2 + 3/10 * p.2)
  | none => p

/-- np.linspace 0 1 n. -/
def linspace01 (n : ℕ) : List ℚ :=
  (List.range n).map (fun i => if n ≤ 1 then 0 else (i : ℚ) / ((n : ℚ) - 1))

/-- The stroke-matching reconstruction of _extract_strokes_from_image: for
each stroke index up to the shorter list, equal point counts give the
pointwise factor blend passed through the raster snap, unequal counts give
the arc-length reparameterization onto max-count uniform parameters with a
pure factor blend. -/
def extract_strokes_from_image (snap : Point → Option Point)
    (norm : Point → Point → ℚ) (startStrokes endStrokes : Frame) (factor : ℚ) :
    Frame :=
  (List.range (min startStrokes.length endStrokes.length)).map (fun j =>
    let sStroke := startStrokes.getD j []
    let eStroke := endStrokes.getD j []
    if sStroke.length = eStroke.length then
      (sStroke.zip eStroke).map (fun pe =>
        blendSnap snap
          ((1 - factor) * pe.1.1 + factor * pe.2.1,
           (1 - factor) * pe.1.2 + factor * pe.2.2))
    else
      (linspace01 (max sStroke.length eStroke.length)).map (fun t =>
        let sp := find_point_at_param norm sStroke t
        let ep := find_point_at_param norm eStroke t
        ((1 - factor) * sp.1 + factor * ep.1,
         (1 - factor) * sp.2 + factor * ep.2)))

theorem kget_kset (m : KMap) (k v j) :
    kget (kset m k v) j = if j = k then some v else kget m j := by
  induction m with
  | nil =>
    by_cases hjk : j = k
    · simp [kset, kget, hjk]
    · have hkj : ¬k = j := fun h => hjk h.symm
      simp [kset, kget, hjk, hkj]
  | cons e tl ih =>
    by_cases he : e.1 = k
    · by_cases hjk : j = k
      · simp [kset, kget, he, hjk]
      · have hkj : ¬k = j := fun h => hjk h.symm
        have hej : ¬e.1 = j := fun hh => hkj (he.symm.trans hh)
        simp [kset, kget, he, hjk, hkj, hej]
    · by_cases hej : e.1 = j
      · have hjk : ¬j = k := fun hh => he (hej.trans hh)
        simp [kset, kget, he, hej, hjk]
      · simp [kset, kget, he, hej, ih]

theorem kget_kset_self (m : KMap) (k v) : kget (kset m k v) k = some v := by
  simp [kget_kset]

theorem kget_kset_other (m : KMap) (k v j) (h : j ≠ k) :
    kget (kset m k v) j = kget m j := by
  simp [kget_kset, h]

theorem undo_keyframes (s : AppState) : (undo s).keyframes = s.keyframes := by
  unfold undo
  split <;> rfl

theorem undo_currentKeyframe (s : AppState) :
    (undo s).currentKeyframe = s.currentKeyframe := by
  unfold undo
  split <;> rfl

theorem redo_keyframes (s : AppState) : (redo s).keyframes = s.keyframes := by
  unfold redo
  split <;> rfl

theorem redo_currentKeyframe (s : AppState) :
    (redo s).currentKeyframe = s.currentKeyframe := by
  unfold redo
  split <;> rfl

/-- The state of the concrete run in claim C9: one committed stroke on
keyframe 1, the baseline and the post-commit snapshot in history. -/
def c9State : AppState :=
  { keyframes := [(1, [[(0, 0), (1, 1)]])]
    currentKeyframe := 1
    strokes := [[(0, 0), (1, 1)]]
    history := [[], [[(0, 0), (1, 1)]]]
    redoStack := []
    eraseStateSaved := false }

/-- C9: undo and redo never write the keyframe map and never change the
current keyframe; they touch only the Working Buffer and the two stacks
(plus the erase_state_saved flag reset by the redraw).  Hence after an
undo the map entry of the current keyframe still holds the pre-undo
stroke list, which can differ from the Working Buffer until the next
mutation re-syncs it, as the concrete run in the last conjunct shows. -/
theorem C9_undo_redo_touch_only_buffer_and_stacks :
    (∀ s : AppState,
      (undo s).keyframes = s.keyframes ∧
      (undo s).currentKeyframe = s.currentKeyframe ∧
      (redo s).keyframes = s.keyframes ∧
      (redo s).currentKeyframe = s.currentKeyframe) ∧
    ((undo c9State).keyframes = c9State.keyframes ∧
      kget (undo c9State).keyframes 1 = some [[(0, 0), (1, 1)]] ∧
      (undo c9State).strokes = [] ∧
      (undo c9State).strokes ≠ (kget (undo c9State).keyframes 1).getD []) := by
  constructor
  · intro s
    exact ⟨undo_keyframes s, undo_currentKeyframe s, redo_keyframes s,
      redo_currentKeyframe s⟩
  · refine ⟨?_, ?_, ?_, ?_⟩ <;> with_unfolding_all decide

/-- The two-keyframe state used by the C10 runs: frames 1 and 2 hold the
given stroke lists and the buffer is empty. -/
def c10State (f1 f2 : Frame) : AppState :=
  { initState with keyframes := [(1, f1), (2, f2)] }

/-- C10: with both keyframes present and startFrame 1, endFrame 2, one
inbetween, the truncated index int(1 + 1*(2-1)/2) = int(1.5) equals the
start frame index 1, so the run overwrites the start keyframe entry with
the synthesized inbetween at factor 1/2; and with two inbetweens the
indices for i = 1 and i = 2 both truncate to 1, the second write
overwriting the first, leaving the factor-2/3 inbetween at index 1. -/
theorem C10_truncated_inbetween_index_overwrites_start_keyframe :
    pyInt ((1 : ℚ) + 1 * (2 - 1) / (1 + 1)) = 1 ∧
    (∀ (engine : Frame → Frame → ℚ → Frame) (f1 f2 : Frame),
      kget (interpolate_frames engine (c10State f1 f2) 1 2 1).keyframes 1
        = some (engine f1 f2 (1 / 2))) ∧
    (pyInt ((1 : ℚ) + 1 * (2 - 1) / (2 + 1)) = 1 ∧
      pyInt ((1 : ℚ) + 2 * (2 - 1) / (2 + 1)) = 1) ∧
    (∀ (engine : Frame → Frame → ℚ → Frame) (f1 f2 : Frame),
      kget (interpolate_frames engine (c10State f1 f2) 1 2 2).keyframes 1
        = some (engine f1 f2 (2 / 3))) := by
  refine ⟨by with_unfolding_all decide, ?_,
    ⟨by with_unfolding_all decide, by with_unfolding_all decide⟩, ?_⟩
  · intro engine f1 f2
    simp only [interpolate_frames, c10State, initState]
    rw [show List.range 1 = [0] from rfl]
    simp [kget]
    norm_num
    rw [show interpIndex 1 2 1 1 = 1 from by with_unfolding_all decide]
    simp [kget_kset]
  · intro engine f1 f2
    simp only [interpolate_frames, c10State, initState]
    rw [show List.range 2 = [0, 1] from rfl]
    simp [kget]
    norm_num
    rw [show interpIndex 1 2 2 1 = 1 from by with_unfolding_all decide,
      show interpIndex 1 2 2 2 = 1 from by with_unfolding_all decide]
    simp [kget_kset]

/-- C1 counterexample: a failed interpolation run (the engine returns no
strokes, as optical_flow_interpolate does when OpenCV is missing or the
pipeline raises) over existing keyframes 1 and 2 with one inbetween does
not leave the keyframe map unchanged: the entry of keyframe 1 held one
stroke before the run and holds the empty list afterwards. -/
theorem C1_cex_failed_run_overwrites_keyframe :
    kget (c10State [[(0, 0), (1, 0)]] [[(0, 1), (1, 1)]]).keyframes 1
        = some [[(0, 0), (1, 0)]] ∧
    kget (interpolate_frames (fun _ _ _ => [])
        (c10State [[(0, 0), (1, 0)]] [[(0, 1), (1, 1)]]) 1 2 1).keyframes 1
        = some [] ∧
    some ([] : Frame) ≠ some [[((0 : ℚ), (0 : ℚ)), (1, 0)]] := by
  refine ⟨?_, ?_, ?_⟩ <;> with_unfolding_all decide

/-- C1 amended: when a run fails, the engine yields an empty stroke list;
with both keyframes present the Working Buffer is left unchanged, but the
keyframe map is not: an empty stroke list is stored under each computed
inbetween index (creating or overwriting those entries).  Only when the
start or end keyframe is missing are both the buffer and the map left
exactly as they were. -/
theorem C1_failed_interpolation_state :
    (∀ (s : AppState) (startF endF : Int) (n : ℕ),
      kget s.keyframes startF ≠ none → kget s.keyframes endF ≠ none →
      (interpolate_frames (fun _ _ _ => []) s startF endF n).strokes = s.strokes ∧
      (interpolate_frames (fun _ _ _ => []) s startF endF n).keyframes
        = (List.range n).foldl
            (fun m i0 => kset m (interpIndex startF endF n (i0 + 1)) [])
            s.keyframes) ∧
    (∀ (s : AppState) (startF endF : Int) (n : ℕ),
      kget s.keyframes startF = none ∨ kget s.keyframes endF = none →
      (interpolate_frames (fun _ _ _ => []) s startF endF n).strokes = s.strokes ∧
      (interpolate_frames (fun _ _ _ => []) s startF endF n).keyframes
        = s.keyframes) := by
  constructor
  · intro s startF endF n hs he
    have hk : (if s.strokes ≠ [] then save_state s else s).keyframes = s.keyframes := by
      split <;> rfl
    have hst : (if s.strokes ≠ [] then save_state s else s).strokes = s.strokes := by
      split <;> rfl
    simp only [interpolate_frames, hk, hst]
    rw [if_neg]
    · exact ⟨rfl, rfl⟩
    · simp [Option.isNone_iff_eq_none, hs, he]
  · intro s startF endF n h
    have hk : (if s.strokes ≠ [] then save_state s else s).keyframes = s.keyframes := by
      split <;> rfl
    have hst : (if s.strokes ≠ [] then save_state s else s).strokes = s.strokes := by
      split <;> rfl
    simp only [interpolate_frames, hk, hst]
    rw [if_pos]
    · exact ⟨hst, hk⟩
    · simp only [Option.isNone_iff_eq_none]
      exact h

/-- C1 witness: the amended theorem applied at two concrete runs, one with
both keyframes present and one with the end keyframe missing. -/
theorem C1_failed_interpolation_state_witness :
    ((interpolate_frames (fun _ _ _ => [])
        (c10State [[(0, 0), (1, 0)]] [[(0, 1), (1, 1)]]) 1 2 1).strokes
      = (c10State [[(0, 0), (1, 0)]] [[(0, 1), (1, 1)]]).strokes ∧
    (interpolate_frames (fun _ _ _ => [])
        (c10State [[(0, 0), (1, 0)]] [[(0, 1), (1, 1)]]) 1 2 1).keyframes
      = (List.range 1).foldl
          (fun m i0 => kset m (interpIndex 1 2 1 (i0 + 1)) [])
          (c10State [[(0, 0), (1, 0)]] [[(0, 1), (1, 1)]]).keyframes) ∧
    ((interpolate_frames (fun _ _ _ => [])
        (c10State [[(0, 0), (1, 0)]] [[(0, 1), (1, 1)]]) 1 7 1).strokes
      = (c10State [[(0, 0), (1, 0)]] [[(0, 1), (1, 1)]]).strokes ∧
    (interpolate_frames (fun _ _ _ => [])
        (c10State [[(0, 0), (1, 0)]] [[(0, 1), (1, 1)]]) 1 7 1).keyframes
      = (c10State [[(0, 0), (1, 0)]] [[(0, 1), (1, 1)]]).keyframes) :=
  ⟨C1_failed_interpolation_state.1
      (c10State [[(0, 0), (1, 0)]] [[(0, 1), (1, 1)]]) 1 2 1
      (by with_unfolding_all decide) (by with_unfolding_all decide),
    C1_failed_interpolation_state.2
      (c10State [[(0, 0), (1, 0)]] [[(0, 1), (1, 1)]]) 1 7 1
      (Or.inr (by with_unfolding_all decide))⟩

/-- The state of the C2 counterexamples: keyframe 1 is current with one
committed stroke in the buffer, keyframe 2 holds a different stroke. -/
def c2State : AppState :=
  { keyframes := [(1, [[(0, 0), (1, 0)]]), (2, [[(5, 5), (6, 5)]])]
    currentKeyframe := 1
    strokes := [[(0, 0), (1, 0)]]
    history := [[[(0, 0), (1, 0)]]]
    redoStack := []
    eraseStateSaved := false }

/-- The state of the second C2 counterexample: the buffer was undone to
empty while the entry of keyframe 1 still holds the committed stroke. -/
def c2bState : AppState :=
  { keyframes := [(1, [[(0, 0), (1, 0)]])]
    currentKeyframe := 1
    strokes := []
    history := [[]]
    redoStack := [[[(0, 0), (1, 0)]]]
    eraseStateSaved := false }

/-- C2 counterexample: switching from keyframe 1 to keyframe 2 through
set_keyframe does not load the target frame: the entry of keyframe 2 held
the stroke (5,5)-(6,5), yet the Working Buffer afterwards holds the old
frame 1 stroke (the target entry itself is overwritten with it); and
next_keyframe does not flush the Working Buffer into the previous frame
entry: with an empty buffer over a nonempty stored entry the entry keeps
its old stroke list instead of the buffer value. -/
theorem C2_cex_switch_does_not_load_target :
    ((kget c2State.keyframes 2).getD [] = [[(5, 5), (6, 5)]] ∧
      (set_keyframe c2State 2).strokes = [[(0, 0), (1, 0)]] ∧
      (set_keyframe c2State 2).strokes ≠ (kget c2State.keyframes 2).getD [] ∧
      kget (set_keyframe c2State 2).keyframes 2 = some [[(0, 0), (1, 0)]]) ∧
    (c2bState.strokes = [] ∧
      kget (next_keyframe c2bState).keyframes 1 = some [[(0, 0), (1, 0)]] ∧
      kget (next_keyframe c2bState).keyframes 1 ≠ some c2bState.strokes) := by
  refine ⟨⟨?_, ?_, ?_, ?_⟩, ⟨?_, ?_, ?_⟩⟩ <;> with_unfolding_all decide

/-- C2 amended: on a switch to a different index n, set_keyframe writes
the Working Buffer into both the previous entry and the entry of n
(overwriting whatever n held) and reloads that same buffer, so the buffer
value does not change; next_keyframe and prev_keyframe perform no flush at
all and load the target entry (or an empty list) into the buffer; all
paths reset the history to the single loaded entry with an empty redo
stack (prev_keyframe is a no-op at index 1). -/
theorem C2_keyframe_switch_behavior :
    (∀ (s : AppState) (n : Int), n ≠ s.currentKeyframe →
      (set_keyframe s n).keyframes
          = kset (kset s.keyframes s.currentKeyframe s.strokes) n s.strokes ∧
      (set_keyframe s n).strokes = s.strokes ∧
      (set_keyframe s n).currentKeyframe = n ∧
      (set_keyframe s n).history = [s.strokes] ∧
      (set_keyframe s n).redoStack = []) ∧
    (∀ s : AppState,
      (next_keyframe s).keyframes = s.keyframes ∧
      (next_keyframe s).strokes = (kget s.keyframes (s.currentKeyframe + 1)).getD [] ∧
      (next_keyframe s).currentKeyframe = s.currentKeyframe + 1 ∧
      (next_keyframe s).history = [(next_keyframe s).strokes] ∧
      (next_keyframe s).redoStack = []) ∧
    (∀ s : AppState, 1 < s.currentKeyframe →
      (prev_keyframe s).keyframes = s.keyframes ∧
      (prev_keyframe s).strokes = (kget s.keyframes (s.currentKeyframe - 1)).getD [] ∧
      (prev_keyframe s).currentKeyframe = s.currentKeyframe - 1 ∧
      (prev_keyframe s).history = [(prev_keyframe s).strokes] ∧
      (prev_keyframe s).redoStack = []) ∧
    (∀ s : AppState, ¬1 < s.currentKeyframe → prev_keyframe s = s) := by
  refine ⟨?_, ?_, ?_, ?_⟩
  · intro s n hne
    have hne2 : s.currentKeyframe ≠ n := fun h => hne h.symm
    simp [set_keyframe, load_keyframe, hne2, kget_kset]
  · intro s
    simp [next_keyframe, load_keyframe]
  · intro s h
    simp [prev_keyframe, load_keyframe, h]
  · intro s h
    simp [prev_keyframe, h]

/-- C2 witness: the amended theorem applied at the concrete two-keyframe
state, switching from keyframe 1 to keyframe 2 and back down from 2. -/
theorem C2_keyframe_switch_behavior_witness :
    ((set_keyframe c2State 2).keyframes
        = kset (kset c2State.keyframes c2State.currentKeyframe c2State.strokes) 2
            c2State.strokes ∧
      (set_keyframe c2State 2).strokes = c2State.strokes ∧
      (set_keyframe c2State 2).currentKeyframe = 2 ∧
      (set_keyframe c2State 2).history = [c2State.strokes] ∧
      (set_keyframe c2State 2).redoStack = []) ∧
    prev_keyframe c2bState = c2bState :=
  ⟨C2_keyframe_switch_behavior.1 c2State 2 (by with_unfolding_all decide),
    C2_keyframe_switch_behavior.2.2.2 c2bState (by with_unfolding_all decide)⟩

theorem getLast?_drop_of_lt (l : List Frame) :
    ∀ n, n < l.length → (l.drop n).getLast? = l.getLast? := by
  induction l with
  | nil =>
    intro n h
    simp at h
  | cons a t ih =>
    intro n h
    cases n with
    | zero => rfl
    | succ m =>
      have ht : m < t.length := by simpa using h
      have htne : t ≠ [] := by
        intro hh
        rw [hh] at ht
        simp at ht
      rw [List.drop_succ_cons, ih m ht]
      cases t with
      | nil => exact absurd rfl htne
      | cons b u => simp [List.getLast?_cons_cons]

theorem getLastD_of_getLast?_eq (l : List Frame) (v : Frame) (h : l.getLast? = some v)
    (d : Frame) : l.getLastD d = v := by
  rw [List.getLastD_eq_getLast?, h]
  rfl

theorem trimConcat_getLastD (l : List Frame) (x : Frame) :
    (if max_history < (l ++ [x]).length then (l ++ [x]).drop 1 else l ++ [x]).getLastD []
      = x := by
  split
  · rename_i h
    have h1 : 1 ≤ l.length := by
      simp [List.length_append, max_history] at h
      omega
    rw [List.drop_append_of_le_length h1, List.getLastD_concat]
  · rw [List.getLastD_concat]

theorem trimConcat_dropLast_getLastD (l : List Frame) (x v : Frame)
    (h : l.getLast? = some v) :
    ((if max_history < (l ++ [x]).length then (l ++ [x]).drop 1
      else l ++ [x]).dropLast).getLastD [] = v := by
  split
  · rename_i ht
    have h1 : 1 ≤ l.length := by
      simp [List.length_append, max_history] at ht
      omega
    have h50 : 1 < l.length := by
      simp [List.length_append, max_history] at ht
      omega
    rw [List.drop_append_of_le_length h1, List.dropLast_concat]
    exact getLastD_of_getLast?_eq _ _ ((getLast?_drop_of_lt l 1 h50).trans h) _
  · rw [List.dropLast_concat]
    exact getLastD_of_getLast?_eq _ _ h _

theorem trimConcat_length_ge2 (l : List Frame) (x : Frame) (h : l ≠ []) :
    2 ≤ (if max_history < (l ++ [x]).length then (l ++ [x]).drop 1
      else l ++ [x]).length := by
  have h1 : 1 ≤ l.length := List.length_pos.mpr h
  split
  · rename_i ht
    simp [List.length_append, max_history] at ht ⊢
    omega
  · simp [List.length_append]
    omega

theorem undo_strokes_of_long (s : AppState) (h : 1 < s.history.length) :
    (undo s).strokes = (s.history.dropLast).getLastD [] := by
  rw [undo, if_neg (by omega)]

theorem undo_redoStack_of_long (s : AppState) (h : 1 < s.history.length) :
    (undo s).redoStack = s.redoStack ++ [s.history.getLastD []] := by
  rw [undo, if_neg (by omega)]

theorem redo_strokes_of_ne (s : AppState) (h : s.redoStack ≠ []) :
    (redo s).strokes = s.redoStack.getLastD [] := by
  rw [redo, if_neg (by simp [h])]

/-- The state of the C4 counterexample, reachable by committing the stroke
(0,0)-(1,1) and then erasing it entirely in one eraser application (the
eraser snapshots the pre-erase buffer before mutating, so the top history
entry differs from the Working Buffer afterwards). -/
def c4State : AppState :=
  { keyframes := [(1, [[(0, 0), (1, 1)]])]
    currentKeyframe := 1
    strokes := []
    history := [[], [[(0, 0), (1, 1)]], [[(0, 0), (1, 1)]]]
    redoStack := []
    eraseStateSaved := false }

/-- C4 counterexample: from a reachable state whose Working Buffer is
empty while the top history entry still holds an erased stroke, committing
a new valid stroke and undoing does not restore the pre-commit buffer: the
buffer comes back as the erased stroke list instead of empty. -/
theorem C4_cex_undo_after_commit_not_precommit_buffer :
    c4State.strokes = [] ∧
    (undo (end_stroke c4State [(2, 2), (3, 3)])).strokes = [[(0, 0), (1, 1)]] ∧
    ([[((0 : ℚ), (0 : ℚ)), (1, 1)]] : Frame) ≠ [] := by
  refine ⟨?_, ?_, ?_⟩ <;> with_unfolding_all decide

/-- C4 amended: the round trip holds whenever the top entry of the undo
stack equals the current Working Buffer (true after any snapshot-committing
mutation, but not, for example, right after an eraser drag): then for every
valid stroke of at least 2 points, end_stroke followed by undo restores the
exact pre-commit buffer, and a subsequent redo restores the exact
post-commit buffer. -/
theorem C4_commit_undo_redo_round_trip :
    ∀ (s : AppState) (cur : Stroke), 1 < cur.length →
    s.history.getLast? = some s.strokes →
    (undo (end_stroke s cur)).strokes = s.strokes ∧
    (redo (undo (end_stroke s cur))).strokes = s.strokes ++ [cur] := by
  intro s cur hlen hlast
  have hne : s.history ≠ [] := by
    intro hh
    rw [hh] at hlast
    simp at hlast
  have hs1h : (end_stroke s cur).history =
      (if max_history < (s.history ++ [s.strokes ++ [cur]]).length then
        (s.history ++ [s.strokes ++ [cur]]).drop 1
      else s.history ++ [s.strokes ++ [cur]]) := by
    rw [end_stroke, if_pos hlen]
    rfl
  have hs1r : (end_stroke s cur).redoStack = [] := by
    rw [end_stroke, if_pos hlen]
    rfl
  have hlong : 1 < (end_stroke s cur).history.length := by
    rw [hs1h]
    have := trimConcat_length_ge2 s.history (s.strokes ++ [cur]) hne
    omega
  constructor
  · rw [undo_strokes_of_long _ hlong, hs1h]
    exact trimConcat_dropLast_getLastD s.history (s.strokes ++ [cur]) s.strokes hlast
  · have hr : (undo (end_stroke s cur)).redoStack = [s.strokes ++ [cur]] := by
      rw [undo_redoStack_of_long _ hlong, hs1r, hs1h, trimConcat_getLastD]
      rfl
    rw [redo_strokes_of_ne _ (by rw [hr]; simp), hr]
    rfl

/-- C4 witness: the round trip at the concrete in-sync one-stroke state. -/
theorem C4_commit_undo_redo_round_trip_witness :
    (undo (end_stroke c2State [(2, 2), (3, 3)])).strokes = c2State.strokes ∧
    (redo (undo (end_stroke c2State [(2, 2), (3, 3)]))).strokes
      = c2State.strokes ++ [[(2, 2), (3, 3)]] :=
  C4_commit_undo_redo_round_trip c2State [(2, 2), (3, 3)]
    (by with_unfolding_all decide) (by with_unfolding_all decide)

/-- The last k entries of a list (what FIFO eviction at capacity k keeps). -/
def lastN (k : ℕ) (l : List Frame) : List Frame := l.drop (l.length - k)

/-- n successive pencil commits of the strokes fs 0, ..., fs (n-1). -/
def commitRun (fs : ℕ → Stroke) (n : ℕ) (s : AppState) : AppState :=
  (List.range n).foldl (fun t i => end_stroke t (fs i)) s

/-- The Working Buffer after the first m strokes were committed. -/
def bufferAfter (fs : ℕ → Stroke) (m : ℕ) : Frame :=
  (List.range m).map fs

theorem lastN_append_step (L : List Frame) (x : Frame) :
    (if max_history < (lastN max_history L ++ [x]).length then
      (lastN max_history L ++ [x]).drop 1
    else lastN max_history L ++ [x]) = lastN max_history (L ++ [x]) := by
  by_cases hL : L.length < max_history
  · have h0 : L.length - max_history = 0 := by omega
    have h0x : L.length + 1 - max_history = 0 := by omega
    have hlast : lastN max_history L = L := by simp [lastN, h0]
    rw [hlast, if_neg (by simp [List.length_append]; omega)]
    simp [lastN, List.length_append, h0x]
  · push_neg at hL
    have hlen : (lastN max_history L).length = max_history := by
      simp [lastN]
      omega
    have h1 : 1 ≤ (lastN max_history L).length := by
      rw [hlen]
      simp [max_history]
    rw [if_pos (by simp [List.length_append]; omega)]
    rw [List.drop_append_of_le_length h1]
    simp only [lastN]
    rw [List.drop_drop]
    rw [List.drop_append_of_le_length (by simp [List.length_append]; omega)]
    congr 2
    simp [List.length_append]
    omega

theorem lastN_self_of_le (l : List Frame) (h : l.length ≤ max_history) :
    lastN max_history l = l := by
  have h0 : l.length - max_history = 0 := by omega
  simp [lastN, h0]

theorem commitRun_closed (fs : ℕ → Stroke) (hval : ∀ i, 1 < (fs i).length) :
    ∀ n, (commitRun fs n initState).strokes = bufferAfter fs n ∧
      (commitRun fs n initState).history
        = lastN max_history
            ([[]] ++ (List.range n).map (fun k => bufferAfter fs (k + 1))) ∧
      (commitRun fs n initState).redoStack = [] ∧
      (commitRun fs n initState).keyframes
        = (if n = 0 then [] else [(1, bufferAfter fs n)]) ∧
      (commitRun fs n initState).currentKeyframe = 1 := by
  intro n
  induction n with
  | zero => simp [commitRun, bufferAfter, lastN, initState, max_history]
  | succ m ih =>
    obtain ⟨ihs, ihh, ihr, ihk, ihc⟩ := ih
    have hstep : commitRun fs (m + 1) initState
        = end_stroke (commitRun fs m initState) (fs m) := by
      simp [commitRun, List.range_succ]
    have hbuf : bufferAfter fs m ++ [fs m] = bufferAfter fs (m + 1) := by
      simp [bufferAfter, List.range_succ]
    rw [hstep, end_stroke, if_pos (hval m)]
    refine ⟨?_, ?_, ?_, ?_, ?_⟩
    · show (commitRun fs m initState).strokes ++ [fs m] = bufferAfter fs (m + 1)
      rw [ihs, hbuf]
    · show (if max_history <
          ((commitRun fs m initState).history
            ++ [(commitRun fs m initState).strokes ++ [fs m]]).length then
          ((commitRun fs m initState).history
            ++ [(commitRun fs m initState).strokes ++ [fs m]]).drop 1
        else (commitRun fs m initState).history
            ++ [(commitRun fs m initState).strokes ++ [fs m]]) = _
      rw [ihs, ihh, hbuf, lastN_append_step]
      congr 1
      simp [List.range_succ]
    · rfl
    · show kset (commitRun fs m initState).keyframes
          (commitRun fs m initState).currentKeyframe
          ((commitRun fs m initState).strokes ++ [fs m])
        = _
      rw [ihs, ihk, ihc, hbuf]
      by_cases hm : m = 0
      · simp [hm, kset]
      · simp [hm, kset]
    · exact ihc

theorem save_state_fifo (s : AppState) (h : s.history.length ≤ max_history) :
    (save_state s).history = lastN max_history (s.history ++ [s.strokes]) ∧
    (save_state s).history.length ≤ max_history ∧
    (save_state s).history ≠ [] := by
  have heq : (save_state s).history
      = lastN max_history (s.history ++ [s.strokes]) := by
    show (if max_history < (s.history ++ [s.strokes]).length then
        (s.history ++ [s.strokes]).drop 1 else s.history ++ [s.strokes])
      = lastN max_history (s.history ++ [s.strokes])
    rw [show s.history ++ [s.strokes]
        = lastN max_history s.history ++ [s.strokes] from by
      rw [lastN_self_of_le s.history h]]
    rw [lastN_append_step]
    rw [lastN_self_of_le s.history h]
  refine ⟨heq, ?_, ?_⟩
  · rw [heq]
    simp [lastN, List.length_append]
    omega
  · rw [heq]
    have : (lastN max_history (s.history ++ [s.strokes])).length ≠ 0 := by
      simp [lastN, List.length_append, max_history]
      omega
    intro hnil
    rw [hnil] at this
    simp at this

theorem undo_history_ne (s : AppState) (h : s.history ≠ []) :
    (undo s).history ≠ [] := by
  rw [undo]
  split
  · exact h
  · rename_i hlong
    push_neg at hlong
    show s.history.dropLast ≠ []
    have : s.history.dropLast.length ≠ 0 := by
      simp [List.length_dropLast]
      omega
    intro hnil
    rw [hnil] at this
    simp at this

theorem redo_history_ne (s : AppState) (h : s.history ≠ []) :
    (redo s).history ≠ [] := by
  rw [redo]
  split
  · exact h
  · simp

theorem end_stroke_history_ne (s : AppState) (st : Stroke) (h : s.history ≠ []) :
    (end_stroke s st).history ≠ [] := by
  rw [end_stroke]
  split
  · show (if max_history < (s.history ++ [s.strokes ++ [st]]).length then
        (s.history ++ [s.strokes ++ [st]]).drop 1
      else s.history ++ [s.strokes ++ [st]]) ≠ []
    have h2 := trimConcat_length_ge2 s.history (s.strokes ++ [st]) h
    intro hnil
    rw [hnil] at h2
    simp at h2
  · exact h

theorem lastN_cons_over (L : List Frame) (h : L.length = max_history + 10) :
    lastN max_history (([] : Frame) :: L) = L.drop 10 := by
  simp only [lastN, List.length_cons, h]
  rw [show max_history + 10 + 1 - max_history = 10 + 1 from by omega]
  rw [List.drop_succ_cons]

/-- C5: the undo stack is bounded at max_history = 50 entries with FIFO
eviction (save_state keeps exactly the last 50 pushed snapshots) and stays
nonempty after initialization; in particular, 60 sequential valid stroke
commits from the initial state leave exactly 50 history entries, namely
the commit snapshots with the oldest 10 dropped. -/
theorem C5_undo_stack_bound_and_fifo :
    (∀ fs : ℕ → Stroke, (∀ i, 1 < (fs i).length) →
      (commitRun fs (max_history + 10) initState).history.length = max_history ∧
      (commitRun fs (max_history + 10) initState).history
        = ((List.range (max_history + 10)).map
            (fun k => bufferAfter fs (k + 1))).drop 10 ∧
      (commitRun fs (max_history + 10) initState).history ≠ []) ∧
    (∀ s : AppState, s.history.length ≤ max_history →
      (save_state s).history = lastN max_history (s.history ++ [s.strokes]) ∧
      (save_state s).history.length ≤ max_history ∧
      (save_state s).history ≠ []) ∧
    (∀ s : AppState, s.history ≠ [] →
      (undo s).history ≠ [] ∧ (redo s).history ≠ []) ∧
    (∀ (s : AppState) (st : Stroke), s.history ≠ [] →
      (end_stroke s st).history ≠ []) := by
  refine ⟨?_, save_state_fifo,
    fun s h => ⟨undo_history_ne s h, redo_history_ne s h⟩, end_stroke_history_ne⟩
  intro fs hval
  obtain ⟨-, hh, -, -, -⟩ := commitRun_closed fs hval (max_history + 10)
  have hlenL : ((List.range (max_history + 10)).map
      (fun k => bufferAfter fs (k + 1))).length = max_history + 10 := by
    simp
  have hh2 : (commitRun fs (max_history + 10) initState).history
      = ((List.range (max_history + 10)).map
          (fun k => bufferAfter fs (k + 1))).drop 10 := by
    rw [hh]
    exact lastN_cons_over _ hlenL
  refine ⟨?_, hh2, ?_⟩
  · rw [hh2]
    simp [hlenL]
  · rw [hh2]
    have : (((List.range (max_history + 10)).map
        (fun k => bufferAfter fs (k + 1))).drop 10).length ≠ 0 := by
      simp [hlenL, max_history]
    intro hnil
    rw [hnil] at this
    simp at this

/-- The constant commit stream for the C5 witness. -/
def c5Strokes : ℕ → Stroke := fun _ => [(0, 0), (0, 1)]

/-- C5 witness: the bound theorem applied to a concrete commit stream and
to the initial state for the FIFO step. -/
theorem C5_undo_stack_bound_and_fifo_witness :
    ((commitRun c5Strokes (max_history + 10) initState).history.length
        = max_history ∧
      (commitRun c5Strokes (max_history + 10) initState).history
        = ((List.range (max_history + 10)).map
            (fun k => bufferAfter c5Strokes (k + 1))).drop 10 ∧
      (commitRun c5Strokes (max_history + 10) initState).history ≠ []) ∧
    ((save_state initState).history
        = lastN max_history (initState.history ++ [initState.strokes]) ∧
      (save_state initState).history.length ≤ max_history ∧
      (save_state initState).history ≠ []) :=
  ⟨C5_undo_stack_bound_and_fifo.1 c5Strokes (fun i => by simp [c5Strokes]),
    C5_undo_stack_bound_and_fifo.2.1 initState (by decide)⟩

/-- The concrete pencil move of the C3 counterexample and witness: at the
default display scale 1/2, a sample 15 display units away from the last
point (spacing 15 > 10) with int(15 / 10) = 1, which inserts no synthetic
point at all. -/
def c3Move : List Point := ((0, 0) : Point) :: continue_stroke_pencil (1/2) (0, 0) (30, 0) 1

/-- C3 counterexample: a fast pencil move whose display spacing is 15
exceeds the smoothing threshold, yet no synthetic point is inserted
(int(15/10) = 1 makes range(1, 1) empty), so the two consecutive stored
points are 15 display units apart, violating the claimed bound of 10. -/
theorem C3_cex_fast_move_leaves_gap_over_threshold :
    (10 * ((1 : ℕ) : ℚ)) ^ 2 ≤ displayDist2 (1/2) (0, 0) (30, 0) ∧
    displayDist2 (1/2) (0, 0) (30, 0) < (10 * (((1 : ℕ) : ℚ) + 1)) ^ 2 ∧
    100 < displayDist2 (1/2) (0, 0) (30, 0) ∧
    c3Move = [(0, 0), (30, 0)] ∧
    100 < displayDist2 (1/2) (c3Move.getD 0 (0, 0)) (c3Move.getD 1 (0, 0)) := by
  refine ⟨?_, ?_, ?_, ?_, ?_⟩ <;> with_unfolding_all decide

/-- C3 amended: when one in-canvas non-crossing pencil move triggers
smoothing (display spacing over the threshold 10), the points stored by
that move, paired consecutively starting from the previous last point, are
evenly spaced at spacing / int(spacing / 10); this can exceed the claimed
threshold 10 but always stays strictly below twice the threshold, i.e.
every consecutive squared display spacing is below 400.  numPoints is the
Python int(spacing / 10), characterized by the two squared bounds. -/
theorem C3_smoothing_gap_strictly_below_twice_threshold :
    ∀ (sz : ℚ) (last cur : Point) (n : ℕ),
    ((10 * n : ℚ)) ^ 2 ≤ displayDist2 sz last cur →
    displayDist2 sz last cur < ((10 * (n + 1) : ℚ)) ^ 2 →
    100 < displayDist2 sz last cur →
    ∀ i, i + 1 < (last :: continue_stroke_pencil sz last cur n).length →
      displayDist2 sz
          ((last :: continue_stroke_pencil sz last cur n).getD i (0, 0))
          ((last :: continue_stroke_pencil sz last cur n).getD (i + 1) (0, 0))
        < 400 := by
  intro sz last cur n hlo hup htrig
  have hg : ∀ i : ℕ, lerpPt last cur n i
      = (last.1 + (cur.1 - last.1) * (i : ℚ) / (n : ℚ),
         last.2 + (cur.2 - last.2) * (i : ℚ) / (n : ℚ)) := fun i => rfl
  have hn0 : n ≠ 0 := by
    intro h0
    rw [h0] at hup
    norm_num at hup
    linarith
  have hnq : (n : ℚ) ≠ 0 := Nat.cast_ne_zero.mpr hn0
  have hg0 : lerpPt last cur n 0 = last := by
    simp [lerpPt]
  have hgn : lerpPt last cur n n = cur := by
    simp only [lerpPt]
    field_simp
  have hlist : (last :: continue_stroke_pencil sz last cur n)
      = (List.range (n + 1)).map (lerpPt last cur n) := by
    obtain ⟨m, rfl⟩ : ∃ m, n = m + 1 := ⟨n - 1, by omega⟩
    rw [continue_stroke_pencil, if_pos htrig]
    have h1 : insertedPoints last cur (m + 1)
        = (List.range m).map (fun j => lerpPt last cur (m + 1) (j + 1)) := by
      rw [insertedPoints, List.range_succ_eq_map, List.drop_succ_cons,
        List.drop_zero, List.map_map]
      rfl
    have h2 : (List.range (m + 1 + 1)).map (lerpPt last cur (m + 1))
        = last ::
          ((List.range m).map (fun j => lerpPt last cur (m + 1) (j + 1)) ++ [cur]) := by
      rw [List.range_succ_eq_map, List.map_cons, hg0, List.map_map]
      congr 1
      rw [show List.range (m + 1) = List.range m ++ [m] from List.range_succ m,
        List.map_append]
      congr 1
      simp [hgn]
    rw [h1, h2]
  intro i hi
  rw [hlist] at hi ⊢
  have hlen : ((List.range (n + 1)).map (lerpPt last cur n)).length = n + 1 := by simp
  rw [hlen] at hi
  have hgetD : ∀ j, j < n + 1 → ((List.range (n + 1)).map (lerpPt last cur n)).getD j (0, 0) = lerpPt last cur n j := by
    intro j hj
    rw [List.getD_eq_getElem?_getD]
    rw [List.getElem?_map]
    rw [List.getElem?_range hj]
    rfl
  rw [hgetD i (by omega), hgetD (i + 1) hi]
  have hgap : displayDist2 sz (lerpPt last cur n i) (lerpPt last cur n (i + 1)) * (n : ℚ) ^ 2
      = displayDist2 sz last cur := by
    simp only [lerpPt, displayDist2]
    field_simp
    ring
  have hnpos : (0 : ℚ) < (n : ℚ) ^ 2 := by positivity
  have hle : ((n : ℚ) + 1) ^ 2 ≤ 4 * (n : ℚ) ^ 2 := by
    have h1 : (1 : ℚ) ≤ (n : ℚ) := by
      have := Nat.one_le_iff_ne_zero.mpr hn0
      exact_mod_cast this
    nlinarith
  have hup2 : displayDist2 sz last cur < 100 * ((n : ℚ) + 1) ^ 2 := by
    have : ((10 * (n + 1) : ℚ)) ^ 2 = 100 * ((n : ℚ) + 1) ^ 2 := by
      ring
    linarith [hup, this.symm.le]
  have : displayDist2 sz (lerpPt last cur n i) (lerpPt last cur n (i + 1)) * (n : ℚ) ^ 2 < 400 * (n : ℚ) ^ 2 := by
    rw [hgap]
    calc displayDist2 sz last cur < 100 * ((n : ℚ) + 1) ^ 2 := hup2
      _ ≤ 100 * (4 * (n : ℚ) ^ 2) := by linarith
      _ = 400 * (n : ℚ) ^ 2 := by ring
  exact lt_of_mul_lt_mul_right (by linarith) (le_of_lt hnpos)

/-- C3 witness: the amended bound applied to the concrete fast move. -/
theorem C3_smoothing_gap_strictly_below_twice_threshold_witness :
    displayDist2 (1/2) (c3Move.getD 0 (0, 0)) (c3Move.getD 1 (0, 0)) < 400 :=
  C3_smoothing_gap_strictly_below_twice_threshold (1/2) (0, 0) (30, 0) 1
    (by with_unfolding_all decide) (by with_unfolding_all decide)
    (by with_unfolding_all decide) 0 (by with_unfolding_all decide)


theorem yLeft_between (x1 y1 x2 y2 : ℚ)
    (h : x1 < 0 ∧ 0 < x2 ∨ x2 < 0 ∧ 0 < x1) :
    min y1 y2 ≤ (-(x2 * y1 - x1 * y2) - (y2 - y1) * 0) / (x1 - x2) ∧
    (-(x2 * y1 - x1 * y2) - (y2 - y1) * 0) / (x1 - x2) ≤ max y1 y2 := by
  rcases h with ⟨hx1, hx2⟩ | ⟨hx2, hx1⟩
  · have hne : x2 - x1 ≠ 0 := by intro hh; nlinarith
    have hne2 : x1 - x2 ≠ 0 := by intro hh; nlinarith
    have heq : (-(x2 * y1 - x1 * y2) - (y2 - y1) * 0) / (x1 - x2)
        = (x2 * y1 - x1 * y2) / (x2 - x1) := by
      field_simp
      ring
    rw [heq]
    have hd : (0 : ℚ) < x2 - x1 := by linarith
    constructor
    · rw [le_div_iff₀ hd]
      nlinarith [mul_nonneg hx2.le (sub_nonneg.mpr (min_le_left y1 y2)),
        mul_nonneg (neg_nonneg.mpr hx1.le) (sub_nonneg.mpr (min_le_right y1 y2))]
    · rw [div_le_iff₀ hd]
      nlinarith [mul_nonneg hx2.le (sub_nonneg.mpr (le_max_left y1 y2)),
        mul_nonneg (neg_nonneg.mpr hx1.le) (sub_nonneg.mpr (le_max_right y1 y2))]
  · have hne2 : x1 - x2 ≠ 0 := by intro hh; nlinarith
    have heq : (-(x2 * y1 - x1 * y2) - (y2 - y1) * 0) / (x1 - x2)
        = (x1 * y2 - x2 * y1) / (x1 - x2) := by
      field_simp
    rw [heq]
    have hd : (0 : ℚ) < x1 - x2 := by linarith
    constructor
    · rw [le_div_iff₀ hd]
      nlinarith [mul_nonneg hx1.le (sub_nonneg.mpr (min_le_right y1 y2)),
        mul_nonneg (neg_nonneg.mpr hx2.le) (sub_nonneg.mpr (min_le_left y1 y2))]
    · rw [div_le_iff₀ hd]
      nlinarith [mul_nonneg hx1.le (sub_nonneg.mpr (le_max_right y1 y2)),
        mul_nonneg (neg_nonneg.mpr hx2.le) (sub_nonneg.mpr (le_max_left y1 y2))]

theorem rightIntersection_nil (W H x1 y1 x2 y2 : ℚ) (h : max x1 x2 < W) :
    rightIntersection W H x1 y1 x2 y2 = [] := by
  rw [rightIntersection]
  split
  · rw [if_neg]
    rintro ⟨-, -, ⟨-, hW, -, -⟩, -⟩
    linarith
  · rfl

theorem topIntersection_nil (W H x1 y1 x2 y2 : ℚ) (h : 0 < min y1 y2) :
    topIntersection W H x1 y1 x2 y2 = [] := by
  rw [topIntersection]
  split
  · rw [if_neg]
    rintro ⟨-, -, ⟨-, -, hy, -⟩, -⟩
    linarith
  · rfl

theorem bottomIntersection_nil (W H x1 y1 x2 y2 : ℚ) (h : max y1 y2 < H) :
    bottomIntersection W H x1 y1 x2 y2 = [] := by
  rw [bottomIntersection]
  split
  · rw [if_neg]
    rintro ⟨-, -, ⟨-, -, -, hy⟩, -⟩
    linarith
  · rfl

theorem leftIntersection_eq (W H x1 y1 x2 y2 : ℚ)
    (hb : 1/10000 < |x1 - x2|)
    (hcross : x1 < 0 ∧ 0 < x2 ∨ x2 < 0 ∧ 0 < x1)
    (hytop : 0 < min y1 y2) (hybot : max y1 y2 < H) :
    leftIntersection W H x1 y1 x2 y2
      = [(0, y1 + (0 - x1) * (y2 - y1) / (x2 - x1))] := by
  obtain ⟨hbet1, hbet2⟩ := yLeft_between x1 y1 x2 y2 hcross
  have hminx : min x1 x2 ≤ 0 := by
    rcases hcross with ⟨hx1, -⟩ | ⟨hx2, -⟩
    · exact le_trans (min_le_left x1 x2) hx1.le
    · exact le_trans (min_le_right x1 x2) hx2.le
  have hmaxx : (0 : ℚ) ≤ max x1 x2 := by
    rcases hcross with ⟨-, hx2⟩ | ⟨-, hx1⟩
    · exact le_trans hx2.le (le_max_right x1 x2)
    · exact le_trans hx1.le (le_max_left x1 x2)
  have hne : x1 - x2 ≠ 0 := by
    intro hh
    rw [hh] at hb
    norm_num at hb
  have hne2 : x2 - x1 ≠ 0 := fun hh => hne (by linarith)
  rw [leftIntersection]
  rw [if_pos hb, if_pos ⟨by linarith, by linarith,
    ⟨hminx, hmaxx, hbet1, hbet2⟩, Or.inl (by norm_num)⟩]
  congr 2
  field_simp
  ring


theorem headD_mem (l : List Point) (h : l ≠ []) (d : Point) : l.headD d ∈ l := by
  cases l with
  | nil => exact absurd rfl h
  | cons a t => simp

theorem getLastD_mem (l : List Point) (h : l ≠ []) (d : Point) : l.getLastD d ∈ l := by
  rw [List.getLastD_eq_getLast?, List.getLast?_eq_getLast l h]
  exact List.getLast_mem h

theorem mem_leftIntersection_bounds (W H x1 y1 x2 y2 : ℚ) (hW : 0 ≤ W) (p : Point)
    (hp : p ∈ leftIntersection W H x1 y1 x2 y2) :
    0 ≤ p.1 ∧ p.1 ≤ W ∧ 0 ≤ p.2 ∧ p.2 ≤ H := by
  simp only [leftIntersection] at hp
  split at hp
  · split at hp
    · rename_i hcond
      simp only [List.mem_singleton] at hp
      rw [hp]
      exact ⟨le_refl 0, hW, hcond.1, hcond.2.1⟩
    · simp at hp
  · simp at hp

theorem mem_rightIntersection_bounds (W H x1 y1 x2 y2 : ℚ) (hW : 0 ≤ W) (p : Point)
    (hp : p ∈ rightIntersection W H x1 y1 x2 y2) :
    0 ≤ p.1 ∧ p.1 ≤ W ∧ 0 ≤ p.2 ∧ p.2 ≤ H := by
  simp only [rightIntersection] at hp
  split at hp
  · split at hp
    · rename_i hcond
      simp only [List.mem_singleton] at hp
      rw [hp]
      exact ⟨hW, le_refl W, hcond.1, hcond.2.1⟩
    · simp at hp
  · simp at hp

theorem mem_topIntersection_bounds (W H x1 y1 x2 y2 : ℚ) (hH : 0 ≤ H) (p : Point)
    (hp : p ∈ topIntersection W H x1 y1 x2 y2) :
    0 ≤ p.1 ∧ p.1 ≤ W ∧ 0 ≤ p.2 ∧ p.2 ≤ H := by
  simp only [topIntersection] at hp
  split at hp
  · split at hp
    · rename_i hcond
      simp only [List.mem_singleton] at hp
      rw [hp]
      exact ⟨hcond.1, hcond.2.1, le_refl 0, hH⟩
    · simp at hp
  · simp at hp

theorem mem_bottomIntersection_bounds (W H x1 y1 x2 y2 : ℚ) (hH : 0 ≤ H) (p : Point)
    (hp : p ∈ bottomIntersection W H x1 y1 x2 y2) :
    0 ≤ p.1 ∧ p.1 ≤ W ∧ 0 ≤ p.2 ∧ p.2 ≤ H := by
  simp only [bottomIntersection] at hp
  split at hp
  · split at hp
    · rename_i hcond
      simp only [List.mem_singleton] at hp
      rw [hp]
      exact ⟨hcond.1, hcond.2.1, hH, le_refl H⟩
    · simp at hp
  · simp at hp

theorem cbi_subset_rect (W H x1 y1 x2 y2 : ℚ) (hW : 0 ≤ W) (hH : 0 ≤ H) :
    ∀ p ∈ calculate_boundary_intersection W H x1 y1 x2 y2,
      0 ≤ p.1 ∧ p.1 ≤ W ∧ 0 ≤ p.2 ∧ p.2 ≤ H := by
  have key : ∀ q ∈ leftIntersection W H x1 y1 x2 y2
      ++ rightIntersection W H x1 y1 x2 y2
      ++ topIntersection W H x1 y1 x2 y2
      ++ bottomIntersection W H x1 y1 x2 y2,
      0 ≤ q.1 ∧ q.1 ≤ W ∧ 0 ≤ q.2 ∧ q.2 ≤ H := by
    intro q hq
    simp only [List.mem_append] at hq
    rcases hq with ((hq | hq) | hq) | hq
    · exact mem_leftIntersection_bounds W H x1 y1 x2 y2 hW q hq
    · exact mem_rightIntersection_bounds W H x1 y1 x2 y2 hW q hq
    · exact mem_topIntersection_bounds W H x1 y1 x2 y2 hH q hq
    · exact mem_bottomIntersection_bounds W H x1 y1 x2 y2 hH q hq
  intro p hp
  simp only [calculate_boundary_intersection] at hp
  split at hp
  · simp at hp
  · split at hp
    · rename_i hlen
      have hsne : (leftIntersection W H x1 y1 x2 y2
          ++ rightIntersection W H x1 y1 x2 y2
          ++ topIntersection W H x1 y1 x2 y2
          ++ bottomIntersection W H x1 y1 x2 y2).length ≠ 0 := by omega
      split at hp
      · simp only [List.mem_singleton] at hp
        refine key p ?_
        rw [hp]
        refine List.mem_mergeSort.mp (headD_mem _ ?_ (0, 0))
        intro hnil
        have := congrArg List.length hnil
        rw [List.length_mergeSort, List.length_nil] at this
        omega
      · simp only [List.mem_singleton] at hp
        refine key p ?_
        rw [hp]
        refine List.mem_mergeSort.mp (getLastD_mem _ ?_ (0, 0))
        intro hnil
        have := congrArg List.length hnil
        rw [List.length_mergeSort, List.length_nil] at this
        omega
    · exact key p hp

theorem cbi_degenerate (W H x1 y1 x2 y2 : ℚ)
    (ha : |y2 - y1| < 1/10000) (hb : |x1 - x2| < 1/10000) :
    calculate_boundary_intersection W H x1 y1 x2 y2 = [] := by
  rw [calculate_boundary_intersection]
  rw [if_pos ⟨ha, hb⟩]


/-- C7 counterexample: the segment from (50, -10) to (-10, 50) crosses the
left edge x = 0 of the 960 x 540 display rectangle (opposite x signs, with
analytic crossing height 40 inside [0, 540]), yet the function returns the
bottom-edge intersection (40, 0), whose x coordinate is not 0: with two
candidates, the exit-direction selection keeps the other edge's point. -/
theorem C7_cex_crossing_left_edge_returns_other_edge :
    calculate_boundary_intersection 960 540 50 (-10) (-10) 50 = [(40, 0)] ∧
    ((-10 : ℚ) + (0 - 50) * (50 - (-10)) / ((-10) - 50) = 40) ∧
    ((0 : ℚ) ≤ 40 ∧ (40 : ℚ) ≤ 540) ∧
    ((-10 : ℚ) < 0 ∧ (0 : ℚ) < 50) ∧
    (((40 : ℚ), (0 : ℚ)).1 ≠ 0) := by
  refine ⟨?_, ?_, ⟨?_, ?_⟩, ⟨?_, ?_⟩, ?_⟩ <;> with_unfolding_all decide

/-- C7 amended: (1) when the left edge is the only rectangle edge the
segment can meet (x signs opposite, y range strictly inside (0, H), x range
left of W), the returned intersection is exactly (0, y) with y the
analytically interpolated value; with further crossings the single returned
point may belong to another edge, as the counterexample shows.  (2) No
returned point ever lies outside the rectangle.  (3) Degenerate segments
(both direction components below the 1/10000 tolerance) return none. -/
theorem C7_boundary_intersection_behavior :
    (∀ W H x1 y1 x2 y2 : ℚ,
      1/10000 < |x1 - x2| →
      (x1 < 0 ∧ 0 < x2 ∨ x2 < 0 ∧ 0 < x1) →
      0 < min y1 y2 → max y1 y2 < H → max x1 x2 < W →
      calculate_boundary_intersection W H x1 y1 x2 y2
        = [(0, y1 + (0 - x1) * (y2 - y1) / (x2 - x1))]) ∧
    (∀ W H x1 y1 x2 y2 : ℚ, 0 ≤ W → 0 ≤ H →
      ∀ p ∈ calculate_boundary_intersection W H x1 y1 x2 y2,
        0 ≤ p.1 ∧ p.1 ≤ W ∧ 0 ≤ p.2 ∧ p.2 ≤ H) ∧
    (∀ W H x1 y1 x2 y2 : ℚ, |y2 - y1| < 1/10000 → |x1 - x2| < 1/10000 →
      calculate_boundary_intersection W H x1 y1 x2 y2 = []) := by
  refine ⟨?_, cbi_subset_rect, cbi_degenerate⟩
  intro W H x1 y1 x2 y2 hb hcross hytop hybot hxright
  have hguard : ¬(|y2 - y1| < 1/10000 ∧ |x1 - x2| < 1/10000) := by
    rintro ⟨-, h2⟩
    linarith
  simp only [calculate_boundary_intersection]
  rw [if_neg hguard]
  rw [leftIntersection_eq W H x1 y1 x2 y2 hb hcross hytop hybot,
    rightIntersection_nil W H x1 y1 x2 y2 hxright,
    topIntersection_nil W H x1 y1 x2 y2 hytop,
    bottomIntersection_nil W H x1 y1 x2 y2 hybot]
  simp

/-- C7 witness: the amended theorem applied to a segment entering through
the left edge only, and to a degenerate segment. -/
theorem C7_boundary_intersection_behavior_witness :
    calculate_boundary_intersection 960 540 (-10) 20 10 40
      = [(0, 20 + (0 - (-10)) * (40 - 20) / (10 - (-10)))] ∧
    calculate_boundary_intersection 960 540 5 5 5 5 = [] :=
  ⟨C7_boundary_intersection_behavior.1 960 540 (-10) 20 10 40
      (by with_unfolding_all decide)
      (Or.inl ⟨by with_unfolding_all decide, by with_unfolding_all decide⟩)
      (by with_unfolding_all decide) (by with_unfolding_all decide)
      (by with_unfolding_all decide),
    C7_boundary_intersection_behavior.2.2 960 540 5 5 5 5
      (by with_unfolding_all decide) (by with_unfolding_all decide)⟩


/-- The maximal runs of consecutive unmarked points of a stroke, in order:
the reference splitting that erase_at_point's range arithmetic implements. -/
def splitRuns (mk : Point → Bool) : Stroke → List Stroke
  | [] => []
  | p :: ps =>
    if mk p then splitRuns mk ps
    else
      (p :: ps.takeWhile (fun q => !mk q)) ::
        splitRuns mk (ps.dropWhile (fun q => !mk q))
termination_by st => st.length
decreasing_by
  simp_wf
  have h : (List.dropWhile (fun q => !mk q) ps).length ≤ ps.length :=
    (List.dropWhile_sublist (fun q => !mk q)).length_le
  simp only [List.length_cons]
  omega

theorem markedIdx_nil_iff (mk : Point → Bool) (st : Stroke) :
    markedIdx mk st = [] ↔ ∀ p ∈ st, mk p = false := by
  induction st with
  | nil => simp [markedIdx]
  | cons p ps ih =>
    by_cases hp : mk p
    · simp [markedIdx, hp]
    · simp [markedIdx, hp, ih]
    
theorem map_add_add (l : List ℕ) (a b : ℕ) :
    (l.map (fun i => i + a)).map (fun i => i + b) = l.map (fun i => i + (a + b)) := by
  induction l with
  | nil => rfl
  | cons x xs ih =>
    simp only [List.map_cons, ih, List.cons.injEq]
    exact ⟨by omega, trivial⟩

theorem markedIdx_append (mk : Point → Bool) (l1 l2 : Stroke) :
    markedIdx mk (l1 ++ l2)
      = markedIdx mk l1 ++ (markedIdx mk l2).map (fun i => i + l1.length) := by
  induction l1 with
  | nil => simp [markedIdx]
  | cons p ps ih =>
    simp only [List.cons_append, markedIdx, List.append_eq, ih, List.map_append,
      map_add_add, List.append_assoc, List.length_cons]

theorem markedIdx_all_marked (mk : Point → Bool) (w : Stroke)
    (h : ∀ p ∈ w, mk p = true) : markedIdx mk w = List.range w.length := by
  induction w with
  | nil => simp [markedIdx]
  | cons p ps ih =>
    have hp : mk p = true := h p (by simp)
    rw [markedIdx, if_pos hp, ih (fun q hq => h q (by simp [hq]))]
    rw [List.length_cons, List.range_succ_eq_map]
    rfl

theorem dropWhile_head_false (p : Point → Bool) :
    ∀ (l : List Point) (q : Point) (rest : List Point),
      l.dropWhile p = q :: rest → p q = false := by
  intro l
  induction l with
  | nil => intro q rest h; simp [List.dropWhile] at h
  | cons a t ih =>
    intro q rest h
    by_cases pa : p a
    · rw [List.dropWhile_cons_of_pos pa] at h
      exact ih q rest h
    · rw [List.dropWhile_cons_of_neg pa] at h
      rw [← (List.cons.injEq _ _ _ _).mp h |>.1]
      simpa using pa

theorem toRangesAux_run : ∀ (k s e : ℕ) (l : List ℕ), (∀ x ∈ l, x ≠ e + k + 1) →
    toRangesAux (s, e) (List.range' (e + 1) k ++ l) = (s, e + k) :: toRanges l := by
  intro k
  induction k with
  | zero =>
    intro s e l hl
    cases l with
    | nil => rfl
    | cons x xs =>
      have hx : x ≠ e + 1 := by
        have := hl x (by simp)
        omega
      simp only [List.range', List.nil_append, toRangesAux, if_neg hx]
      simp [toRanges]
  | succ k ih =>
    intro s e l hl
    rw [show List.range' (e + 1) (k + 1) = (e + 1) :: List.range' (e + 2) k from rfl]
    rw [List.cons_append]
    rw [show ∀ rest : List ℕ, toRangesAux (s, e) ((e + 1) :: rest)
        = toRangesAux (s, e + 1) rest from fun rest => by simp [toRangesAux]]
    have h2 := ih s (e + 1) l (by intro x hx; have := hl x hx; omega)
    rw [show List.range' (e + 1 + 1) k = List.range' (e + 2) k from rfl] at h2
    rw [h2, show e + 1 + k = e + (k + 1) from by omega]

theorem toRanges_run_append (a k : ℕ) (hk : 1 ≤ k) (l : List ℕ)
    (hl : ∀ x ∈ l, x ≠ a + k) :
    toRanges (List.range' a k ++ l) = (a, a + k - 1) :: toRanges l := by
  obtain ⟨m, rfl⟩ : ∃ m, k = m + 1 := ⟨k - 1, by omega⟩
  rw [show List.range' a (m + 1) = a :: List.range' (a + 1) m from rfl,
    List.cons_append]
  show toRangesAux (a, a) (List.range' (a + 1) m ++ l) = _
  rw [toRangesAux_run m a a l (by intro x hx; have := hl x hx; omega)]
  congr 2

theorem toRangesAux_map_shift (k : ℕ) :
    ∀ (l : List ℕ) (s e : ℕ),
      toRangesAux (s + k, e + k) (l.map (fun i => i + k))
        = (toRangesAux (s, e) l).map (fun r => (r.1 + k, r.2 + k)) := by
  intro l
  induction l with
  | nil => intro s e; rfl
  | cons x xs ih =>
    intro s e
    by_cases hx : x = e + 1
    · subst hx
      have hx2 : e + 1 + k = e + k + 1 := by omega
      simp only [List.map_cons]
      rw [show toRangesAux (s + k, e + k) ((e + 1 + k) :: (xs.map (fun i => i + k)))
          = toRangesAux (s + k, e + 1 + k) (xs.map (fun i => i + k)) from by
        simp [toRangesAux, hx2]]
      rw [show toRangesAux (s, e) ((e + 1) :: xs) = toRangesAux (s, e + 1) xs from by
        simp [toRangesAux]]
      exact ih s (e + 1)
    · have hx2 : ¬(x + k = e + k + 1) := by omega
      simp only [List.map_cons, toRangesAux, if_neg hx2, if_neg hx]
      congr 1
      exact ih x x

theorem toRanges_map_shift (l : List ℕ) (k : ℕ) :
    toRanges (l.map (fun i => i + k))
      = (toRanges l).map (fun r => (r.1 + k, r.2 + k)) := by
  cases l with
  | nil => rfl
  | cons x xs =>
    show toRangesAux (x + k, x + k) (xs.map (fun i => i + k)) = _
    exact toRangesAux_map_shift k xs x x


theorem takeWhile_append_all (p : Point → Bool) (l1 l2 : Stroke)
    (h : ∀ a ∈ l1, p a = true) :
    (l1 ++ l2).takeWhile p = l1 ++ l2.takeWhile p := by
  induction l1 with
  | nil => rfl
  | cons a t ih =>
    rw [List.cons_append, List.takeWhile_cons_of_pos (h a (by simp)), List.cons_append]
    rw [ih (fun b hb => h b (by simp [hb]))]

theorem dropWhile_append_all (p : Point → Bool) (l1 l2 : Stroke)
    (h : ∀ a ∈ l1, p a = true) :
    (l1 ++ l2).dropWhile p = l2.dropWhile p := by
  induction l1 with
  | nil => rfl
  | cons a t ih =>
    rw [List.cons_append, List.dropWhile_cons_of_pos (h a (by simp))]
    exact ih (fun b hb => h b (by simp [hb]))

theorem splitRuns_all_unmarked (mk : Point → Bool) (st : Stroke) (hne : st ≠ [])
    (h : ∀ p ∈ st, mk p = false) : splitRuns mk st = [st] := by
  cases st with
  | nil => exact absurd rfl hne
  | cons p ps =>
    have hp : mk p = false := h p (by simp)
    rw [splitRuns, if_neg (by simp [hp])]
    have hps : ∀ q ∈ ps, (fun q => !mk q) q = true := by
      intro q hq
      simp [h q (by simp [hq])]
    have h1 : ps.takeWhile (fun q => !mk q) = ps := by
      have := takeWhile_append_all (fun q => !mk q) ps [] hps
      simpa using this
    have h2 : ps.dropWhile (fun q => !mk q) = [] := by
      have := dropWhile_append_all (fun q => !mk q) ps [] hps
      simpa using this
    rw [h1, h2]
    rw [show splitRuns mk [] = ([] : List Stroke) from by rw [splitRuns]]

theorem splitRuns_marked_front (mk : Point → Bool) (w t : Stroke)
    (h : ∀ p ∈ w, mk p = true) : splitRuns mk (w ++ t) = splitRuns mk t := by
  induction w with
  | nil => rfl
  | cons a u ih =>
    rw [List.cons_append, splitRuns, if_pos (h a (by simp))]
    exact ih (fun b hb => h b (by simp [hb]))

theorem splitRuns_unmarked_front (mk : Point → Bool) (u t : Stroke) (hne : u ≠ [])
    (hu : ∀ p ∈ u, mk p = false)
    (ht : t = [] ∨ ∃ q t2, t = q :: t2 ∧ mk q = true) :
    splitRuns mk (u ++ t) = u :: splitRuns mk t := by
  cases u with
  | nil => exact absurd rfl hne
  | cons p u2 =>
    have hp : mk p = false := hu p (by simp)
    rw [List.cons_append, splitRuns, if_neg (by simp [hp])]
    have hu2 : ∀ q ∈ u2, (fun q => !mk q) q = true := by
      intro q hq
      simp [hu q (by simp [hq])]
    have htake : (u2 ++ t).takeWhile (fun q => !mk q) = u2 ++ t.takeWhile (fun q => !mk q) :=
      takeWhile_append_all _ u2 t hu2
    have hdrop : (u2 ++ t).dropWhile (fun q => !mk q) = t.dropWhile (fun q => !mk q) :=
      dropWhile_append_all _ u2 t hu2
    have htake2 : t.takeWhile (fun q => !mk q) = [] := by
      rcases ht with rfl | ⟨q, t2, rfl, hq⟩
      · rfl
      · exact List.takeWhile_cons_of_neg (by simp [hq])
    have hdrop2 : t.dropWhile (fun q => !mk q) = t := by
      rcases ht with rfl | ⟨q, t2, rfl, hq⟩
      · rfl
      · exact List.dropWhile_cons_of_neg (by simp [hq])
    rw [htake, hdrop, htake2, hdrop2]
    simp


theorem segsAux_shift (pre x : Stroke) :
    ∀ (rs : List (ℕ × ℕ)) (l : ℤ), -1 ≤ l →
      segsAux (pre ++ x) ((pre.length : ℤ) + l)
          (rs.map (fun r => (r.1 + pre.length, r.2 + pre.length)))
        = segsAux x l rs := by
  intro rs
  induction rs with
  | nil =>
    intro l hl
    show (if (pre.length : ℤ) + l < ((pre ++ x).length : ℤ) - 1 then
        (if 1 < ((pre ++ x).drop ((pre.length : ℤ) + l + 1).toNat).length then
          [(pre ++ x).drop ((pre.length : ℤ) + l + 1).toNat]
        else [])
      else []) = _
    have hlen : ((pre ++ x).length : ℤ) = (pre.length : ℤ) + (x.length : ℤ) := by
      simp [List.length_append]
    have htn : ((pre.length : ℤ) + l + 1).toNat = pre.length + (l + 1).toNat := by
      omega
    by_cases hc : l < (x.length : ℤ) - 1
    · rw [if_pos (by omega), htn, List.drop_append]
      show _ = (if l < (x.length : ℤ) - 1 then
          (if 1 < (x.drop (l + 1).toNat).length then [x.drop (l + 1).toNat] else [])
        else [])
      rw [if_pos hc]
    · rw [if_neg (by omega)]
      show _ = (if l < (x.length : ℤ) - 1 then
          (if 1 < (x.drop (l + 1).toNat).length then [x.drop (l + 1).toNat] else [])
        else [])
      rw [if_neg hc]
  | cons r rs ih =>
    intro l hl
    obtain ⟨a, b⟩ := r
    show ((if (pre.length : ℤ) + l + 1 < ((a + pre.length : ℕ) : ℤ) then
        (if 1 < (pySlice (pre ++ x) ((pre.length : ℤ) + l + 1).toNat (a + pre.length)).length then
          [pySlice (pre ++ x) ((pre.length : ℤ) + l + 1).toNat (a + pre.length)]
        else [])
      else [])
        ++ segsAux (pre ++ x) (((b + pre.length : ℕ) : ℤ))
            (rs.map (fun r => (r.1 + pre.length, r.2 + pre.length))))
      = _
    have htn : ((pre.length : ℤ) + l + 1).toNat = pre.length + (l + 1).toNat := by
      omega
    have hrec : segsAux (pre ++ x) (((b + pre.length : ℕ) : ℤ))
        (rs.map (fun r => (r.1 + pre.length, r.2 + pre.length)))
        = segsAux x (b : ℤ) rs := by
      have hcast : ((b + pre.length : ℕ) : ℤ) = (pre.length : ℤ) + (b : ℤ) := by
        push_cast
        ring
      rw [hcast]
      exact ih (b : ℤ) (by omega)
    have hslice : pySlice (pre ++ x) ((pre.length : ℤ) + l + 1).toNat (a + pre.length)
        = pySlice x ((l : ℤ) + 1).toNat a := by
      unfold pySlice
      rw [htn, List.drop_append]
      congr 1
      omega
    rw [hrec, hslice]
    show _ = (if l + 1 < (a : ℤ) then
        (if 1 < (pySlice x (l + 1).toNat a).length then [pySlice x (l + 1).toNat a]
        else [])
      else []) ++ segsAux x (b : ℤ) rs
    congr 1
    by_cases hc : l + 1 < (a : ℤ)
    · rw [if_pos (by push_cast; omega), if_pos hc]
    · rw [if_neg (by push_cast; omega), if_neg hc]


theorem map_add_comm (l : List ℕ) (k : ℕ) :
    l.map (fun i => i + k) = l.map (fun i => k + i) := by
  induction l with
  | nil => rfl
  | cons x xs ih =>
    simp only [List.map_cons, ih, List.cons.injEq]
    exact ⟨by omega, trivial⟩

theorem map_add_congr (l : List ℕ) (k1 k2 : ℕ) (h : k1 = k2) :
    l.map (fun i => i + k1) = l.map (fun i => i + k2) := by
  rw [h]

theorem segsAux_cons (stroke : Stroke) (lastEnd : ℤ) (a b : ℕ) (rs : List (ℕ × ℕ)) :
    segsAux stroke lastEnd ((a, b) :: rs)
      = (if lastEnd + 1 < (a : ℤ) then
          (if 1 < (pySlice stroke (lastEnd + 1).toNat a).length then
            [pySlice stroke (lastEnd + 1).toNat a]
          else [])
        else []) ++ segsAux stroke (b : ℤ) rs := rfl

theorem segsAux_toRanges_eq (mk : Point → Bool) :
    ∀ (N : ℕ) (st : Stroke), st.length ≤ N →
      segsAux st (-1) (toRanges (markedIdx mk st))
        = (splitRuns mk st).filter (fun s => decide (1 < s.length)) := by
  intro N
  induction N with
  | zero =>
    intro st hlen
    have h0 : st = [] := List.length_eq_zero.mp (by omega)
    subst h0
    rw [show markedIdx mk [] = [] from rfl, show toRanges [] = [] from rfl,
      show splitRuns mk [] = ([] : List Stroke) from by rw [splitRuns]]
    show (if (-1 : ℤ) < (([] : Stroke).length : ℤ) - 1 then
        (if 1 < (([] : Stroke).drop ((-1 : ℤ) + 1).toNat).length then
          [([] : Stroke).drop ((-1 : ℤ) + 1).toNat]
        else [])
      else []) = _
    rw [if_neg (by simp)]
    rfl
  | succ N ih =>
    intro st hlen
    by_cases hall : markedIdx mk st = []
    · have humk : ∀ p ∈ st, mk p = false := (markedIdx_nil_iff mk st).mp hall
      rw [hall, show toRanges [] = [] from rfl]
      by_cases hnil : st = []
      · subst hnil
        rw [show splitRuns mk [] = ([] : List Stroke) from by rw [splitRuns]]
        show (if (-1 : ℤ) < (([] : Stroke).length : ℤ) - 1 then
            (if 1 < (([] : Stroke).drop ((-1 : ℤ) + 1).toNat).length then
              [([] : Stroke).drop ((-1 : ℤ) + 1).toNat]
            else [])
          else []) = _
        rw [if_neg (by simp)]
        rfl
      · rw [splitRuns_all_unmarked mk st hnil humk]
        have hpos : 0 < st.length := List.length_pos.mpr hnil
        show (if (-1 : ℤ) < ((st.length : ℤ)) - 1 then
            (if 1 < (st.drop ((-1 : ℤ) + 1).toNat).length then
              [st.drop ((-1 : ℤ) + 1).toNat]
            else [])
          else []) = _
        rw [if_pos (by omega)]
        rw [show ((-1 : ℤ) + 1).toNat = 0 from rfl, List.drop_zero]
        rw [List.filter_singleton]
        by_cases h1 : 1 < st.length
        · rw [if_pos h1, show decide (1 < st.length) = true from by simpa using h1]
          rfl
        · rw [if_neg h1, show decide (1 < st.length) = false from by simpa using h1]
          rfl
    · obtain ⟨u, hu_def⟩ : ∃ u, u = st.takeWhile (fun p => !mk p) := ⟨_, rfl⟩
      obtain ⟨v, hv_def⟩ : ∃ v, v = st.dropWhile (fun p => !mk p) := ⟨_, rfl⟩
      have hst : u ++ v = st := by
        rw [hu_def, hv_def]
        exact List.takeWhile_append_dropWhile _ _
      have hu_unmk : ∀ p ∈ u, mk p = false := by
        intro p hp
        rw [hu_def] at hp
        have := List.mem_takeWhile_imp hp
        simpa using this
      have hv_ne : v ≠ [] := by
        intro hveq
        apply hall
        rw [markedIdx_nil_iff]
        intro p hp
        rw [← hst, hveq, List.append_nil] at hp
        exact hu_unmk p hp
      obtain ⟨q, v2, hv_cons⟩ : ∃ q v2, v = q :: v2 := by
        cases hvv : v with
        | nil => exact absurd hvv hv_ne
        | cons q v2 => exact ⟨q, v2, rfl⟩
      have hq : mk q = true := by
        have := dropWhile_head_false (fun p => !mk p) st q v2 (by
          rw [← hv_def, hv_cons])
        simpa using this
      obtain ⟨w, hw_def⟩ : ∃ w, w = v.takeWhile mk := ⟨_, rfl⟩
      obtain ⟨t, ht_def⟩ : ∃ t, t = v.dropWhile mk := ⟨_, rfl⟩
      have hvt : w ++ t = v := by
        rw [hw_def, ht_def]
        exact List.takeWhile_append_dropWhile _ _
      have hw_mk : ∀ p ∈ w, mk p = true := by
        intro p hp
        rw [hw_def] at hp
        exact List.mem_takeWhile_imp hp
      have hw_cons : w = q :: v2.takeWhile mk := by
        rw [hw_def, hv_cons, List.takeWhile_cons_of_pos hq]
      have hw_pos : 1 ≤ w.length := by
        rw [hw_cons]
        simp
      have ht_shape : t = [] ∨ ∃ r t2, t = r :: t2 ∧ mk r = false := by
        cases htv : t with
        | nil => exact Or.inl rfl
        | cons r t2 =>
          refine Or.inr ⟨r, t2, rfl, ?_⟩
          exact dropWhile_head_false mk v r t2 (by rw [← ht_def, htv])
      have htail_lb : ∀ y ∈ markedIdx mk t, 1 ≤ y := by
        rcases ht_shape with rfl | ⟨r, t2, hteq, hr⟩
        · intro y hy
          simp [markedIdx] at hy
        · intro y hy
          rw [hteq, markedIdx, if_neg (by simp [hr])] at hy
          simp at hy
          obtain ⟨z, hz, rfl⟩ := hy
          omega
      have hre : st = (u ++ w) ++ t := by
        rw [List.append_assoc, hvt, hst]
      have hmarked : markedIdx mk st
          = List.range' u.length w.length
            ++ (markedIdx mk t).map (fun i => i + (u.length + w.length)) := by
        conv_lhs => rw [← hst, ← hvt]
        rw [markedIdx_append, markedIdx_append]
        rw [(markedIdx_nil_iff mk u).mpr hu_unmk]
        rw [markedIdx_all_marked mk w hw_mk]
        rw [List.nil_append, List.map_append, map_add_add]
        congr 1
        · rw [List.range'_eq_map_range]
          exact map_add_comm (List.range w.length) u.length
        · exact map_add_congr _ _ _ (by omega)
      rw [hmarked]
      rw [toRanges_run_append u.length w.length hw_pos _ (by
        intro x hx
        simp at hx
        obtain ⟨y, hy, rfl⟩ := hx
        have := htail_lb y hy
        omega)]
      rw [toRanges_map_shift]
      rw [show ((toRanges (markedIdx mk t)).map
            (fun r => (r.1 + (u.length + w.length), r.2 + (u.length + w.length))))
          = ((toRanges (markedIdx mk t)).map
            (fun r => (r.1 + (u ++ w).length, r.2 + (u ++ w).length))) from by
        rw [List.length_append]]
      rw [segsAux_cons]
      have hrec : segsAux st ((u.length + w.length - 1 : ℕ) : ℤ)
          ((toRanges (markedIdx mk t)).map
            (fun r => (r.1 + (u ++ w).length, r.2 + (u ++ w).length)))
          = segsAux t (-1) (toRanges (markedIdx mk t)) := by
        conv_lhs => rw [hre]
        have hcast : ((u.length + w.length - 1 : ℕ) : ℤ)
            = ((u ++ w).length : ℤ) + (-1) := by
          rw [List.length_append]
          push_cast [Nat.cast_sub (by omega : 1 ≤ u.length + w.length)]
          ring
        rw [hcast]
        exact segsAux_shift (u ++ w) t _ (-1) (by omega)
      have ht_len : t.length ≤ N := by
        have := congrArg List.length hre
        rw [List.length_append, List.length_append] at this
        omega
      rw [hrec, ih t ht_len]
      have hfirst : pySlice st ((-1 : ℤ) + 1).toNat u.length = u := by
        unfold pySlice
        rw [show ((-1 : ℤ) + 1).toNat = 0 from rfl, List.drop_zero, Nat.sub_zero]
        conv_lhs => rw [← hst]
        exact List.take_left u v
      rw [hfirst]
      by_cases hu_nil : u = []
      · subst hu_nil
        rw [if_neg (by simp)]
        rw [show st = w ++ t from by simpa using hre]
        rw [splitRuns_marked_front mk w t hw_mk]
        simp
      · have hsplit : splitRuns mk st = u :: splitRuns mk t := by
          conv_lhs => rw [← hst, ← hvt]
          rw [splitRuns_unmarked_front mk u (w ++ t) hu_nil hu_unmk
            (Or.inr ⟨q, v2.takeWhile mk ++ t, by rw [hw_cons]; rfl, hq⟩)]
          rw [splitRuns_marked_front mk w t hw_mk]
        rw [hsplit, List.filter_cons]
        have hu_pos : 0 < u.length := List.length_pos.mpr hu_nil
        rw [if_pos (by push_cast; omega)]
        by_cases h1 : 1 < u.length
        · rw [if_pos h1,
            if_pos (show decide (1 < u.length) = true from by simpa using h1)]
          rfl
        · rw [if_neg h1,
            if_neg (show ¬decide (1 < u.length) = true from by simpa using h1)]
          rfl


theorem splitRuns_all_marked (mk : Point → Bool) :
    ∀ st : Stroke, (∀ p ∈ st, mk p = true) → splitRuns mk st = [] := by
  intro st
  induction st with
  | nil => intro _; rw [splitRuns]
  | cons p ps ih =>
    intro h
    rw [splitRuns, if_pos (h p (by simp))]
    exact ih (fun q hq => h q (by simp [hq]))

theorem eraseStrokeOne_eq_splitRuns (mk : Point → Bool) (st : Stroke)
    (h2 : 2 ≤ st.length) :
    eraseStrokeOne mk st
      = (splitRuns mk st).filter (fun s => decide (1 < s.length)) := by
  cases hm : markedIdx mk st with
  | nil =>
    have humk := (markedIdx_nil_iff mk st).mp hm
    have hnil : st ≠ [] := by
      intro h
      subst h
      simp at h2
    rw [show eraseStrokeOne mk st = [st] from by
      unfold eraseStrokeOne
      rw [hm]]
    rw [splitRuns_all_unmarked mk st hnil humk, List.filter_singleton]
    rw [show decide (1 < st.length) = true from by
      simp
      omega]
    rfl
  | cons x xs =>
    rw [show eraseStrokeOne mk st = segsAux st (-1) (toRanges (markedIdx mk st)) from by
      unfold eraseStrokeOne
      rw [hm]]
    exact segsAux_toRanges_eq mk st.length st le_rfl

/-- C6: per-stroke eraser semantics.  (1) For any marking predicate and any
stroke with at least two points, the source's range/segment computation
(eraseStrokeOne, translated from erase_at_point) equals the spec's model:
split into maximal unmarked runs and keep only runs with at least two
points, in order.  (2) A marking covering every point removes the stroke
entirely.  (3) Concretely, erasing the middle point of a centred 5-point
horizontal stroke with the source's radius-10 eraser yields exactly the
two end pairs. -/
theorem C6_eraser_splits_strokes :
    (∀ (mk : Point → Bool) (st : Stroke), 2 ≤ st.length →
      eraseStrokeOne mk st
        = (splitRuns mk st).filter (fun s => decide (1 < s.length)))
    ∧ (∀ (mk : Point → Bool) (st : Stroke), 2 ≤ st.length →
        (∀ p ∈ st, mk p = true) → eraseStrokeOne mk st = [])
    ∧ eraseStrokeOne (inRadius 0 0 eraser_radius)
        [(-30, 0), (-15, 0), (0, 0), (15, 0), (30, 0)]
      = [[(-30, 0), (-15, 0)], [(15, 0), (30, 0)]] := by
  refine ⟨fun mk st h2 => eraseStrokeOne_eq_splitRuns mk st h2, fun mk st h2 hall => ?_, ?_⟩
  · rw [eraseStrokeOne_eq_splitRuns mk st h2, splitRuns_all_marked mk st hall]
    rfl
  · with_unfolding_all decide

theorem C6_eraser_splits_strokes_witness :
    eraseStrokeOne (fun _ : Point => true) [(0, 0), (1, 0)]
        = (splitRuns (fun _ : Point => true) [(0, 0), (1, 0)]).filter
            (fun s => decide (1 < s.length))
    ∧ eraseStrokeOne (fun _ : Point => true) [(0, 0), (1, 0)] = [] :=
  ⟨C6_eraser_splits_strokes.1 (fun _ => true) [(0, 0), (1, 0)] (by decide),
   C6_eraser_splits_strokes.2.1 (fun _ => true) [(0, 0), (1, 0)] (by decide)
     (fun _ _ => rfl)⟩


/-- The stored-stroke invariant: every stroke of the frame has at least two
points. -/
def frameOK (f : Frame) : Prop := ∀ st ∈ f, 2 ≤ st.length

instance frameOK_decidable (f : Frame) : Decidable (frameOK f) :=
  List.decidableBAll _ f

/-- Every frame stored in the keyframe map satisfies the invariant. -/
def kmapOK (m : KMap) : Prop := ∀ e ∈ m, frameOK e.2

instance kmapOK_decidable (m : KMap) : Decidable (kmapOK m) :=
  List.decidableBAll _ m

/-- The full inductive invariant: the Working Buffer, every keyframe map
entry, and every history and redo snapshot hold only strokes with at least
two points. -/
def stateOK (s : AppState) : Prop :=
  frameOK s.strokes ∧ kmapOK s.keyframes ∧
    (∀ f ∈ s.history, frameOK f) ∧ (∀ f ∈ s.redoStack, frameOK f)

instance stateOK_decidable (s : AppState) : Decidable (stateOK s) := by
  unfold stateOK
  infer_instance

theorem frameOK_nil : frameOK [] := fun st h => absurd h (List.not_mem_nil st)

theorem frameOK_append {a b : Frame} (ha : frameOK a) (hb : frameOK b) :
    frameOK (a ++ b) := by
  intro st h
  rcases List.mem_append.mp h with h1 | h1
  · exact ha st h1
  · exact hb st h1

theorem framesOK_getLastD {l : List Frame} (h : ∀ f ∈ l, frameOK f) :
    frameOK (l.getLastD []) := by
  cases l with
  | nil => exact frameOK_nil
  | cons a t =>
    rw [List.getLastD_eq_getLast?, List.getLast?_eq_getLast (a :: t) (by simp)]
    exact h _ (List.getLast_mem (by simp))

theorem framesOK_dropLast {l : List Frame} (h : ∀ f ∈ l, frameOK f) :
    ∀ f ∈ l.dropLast, frameOK f :=
  fun f hf => h f (List.dropLast_sublist l |>.mem hf)

theorem framesOK_drop {l : List Frame} (n : ℕ) (h : ∀ f ∈ l, frameOK f) :
    ∀ f ∈ l.drop n, frameOK f :=
  fun f hf => h f (List.mem_of_mem_drop hf)

theorem kmapOK_kset (k : Int) (v : Frame) :
    ∀ m : KMap, kmapOK m → frameOK v → kmapOK (kset m k v) := by
  intro m
  induction m with
  | nil =>
    intro _ hv e he
    rw [show kset [] k v = [(k, v)] from rfl] at he
    simp only [List.mem_singleton] at he
    subst he
    exact hv
  | cons x tl ih =>
    intro hm hv e he
    rw [show kset (x :: tl) k v
        = if x.1 = k then (k, v) :: tl else x :: kset tl k v from rfl] at he
    by_cases h : x.1 = k
    · rw [if_pos h] at he
      rcases List.mem_cons.mp he with rfl | he2
      · exact hv
      · exact hm e (List.mem_cons_of_mem x he2)
    · rw [if_neg h] at he
      rcases List.mem_cons.mp he with rfl | he2
      · exact hm _ (List.mem_cons_self _ _)
      · exact ih (fun e2 he2' => hm e2 (List.mem_cons_of_mem x he2')) hv e he2

theorem kmapOK_kdel (k : Int) :
    ∀ m : KMap, kmapOK m → kmapOK (kdel m k) := by
  intro m
  induction m with
  | nil =>
    intro hm e he
    exact absurd he (List.not_mem_nil e)
  | cons x tl ih =>
    intro hm e he
    rw [show kdel (x :: tl) k = if x.1 = k then tl else x :: kdel tl k from rfl] at he
    by_cases h : x.1 = k
    · rw [if_pos h] at he
      exact hm e (List.mem_cons_of_mem x he)
    · rw [if_neg h] at he
      rcases List.mem_cons.mp he with rfl | he2
      · exact hm _ (List.mem_cons_self _ _)
      · exact ih (fun e2 he2' => hm e2 (List.mem_cons_of_mem x he2')) e he2

theorem kget_frameOK (k : Int) :
    ∀ m : KMap, kmapOK m → frameOK ((kget m k).getD []) := by
  intro m
  induction m with
  | nil => intro _; exact frameOK_nil
  | cons x tl ih =>
    intro hm
    rw [show kget (x :: tl) k = if x.1 = k then some x.2 else kget tl k from rfl]
    by_cases h : x.1 = k
    · rw [if_pos h]
      exact hm x (List.mem_cons_self x tl)
    · rw [if_neg h]
      exact ih (fun e2 he2' => hm e2 (List.mem_cons_of_mem x he2'))

theorem save_state_stateOK {s : AppState} (h : stateOK s) : stateOK (save_state s) := by
  obtain ⟨hs, hk, hh, hr⟩ := h
  refine ⟨hs, hk, ?_, ?_⟩
  · intro f hf
    rw [show (save_state s).history
        = (if max_history < (s.history ++ [s.strokes]).length then
            (s.history ++ [s.strokes]).drop 1
          else s.history ++ [s.strokes]) from rfl] at hf
    have hmem : ∀ g ∈ s.history ++ [s.strokes], frameOK g := by
      intro g hg
      rcases List.mem_append.mp hg with h1 | h1
      · exact hh g h1
      · rw [List.mem_singleton.mp h1]
        exact hs
    split at hf
    · exact framesOK_drop 1 hmem f hf
    · exact hmem f hf
  · intro f hf
    rw [show (save_state s).redoStack = [] from rfl] at hf
    exact absurd hf (List.not_mem_nil f)

theorem undo_stateOK {s : AppState} (h : stateOK s) : stateOK (undo s) := by
  obtain ⟨hs, hk, hh, hr⟩ := h
  unfold undo
  split
  · exact ⟨hs, hk, hh, hr⟩
  · refine ⟨framesOK_getLastD (framesOK_dropLast hh), hk, framesOK_dropLast hh, ?_⟩
    intro f hf
    rcases List.mem_append.mp hf with h1 | h1
    · exact hr f h1
    · rw [List.mem_singleton.mp h1]
      exact framesOK_getLastD hh

theorem redo_stateOK {s : AppState} (h : stateOK s) : stateOK (redo s) := by
  obtain ⟨hs, hk, hh, hr⟩ := h
  unfold redo
  split
  · exact ⟨hs, hk, hh, hr⟩
  · refine ⟨framesOK_getLastD hr, hk, ?_, framesOK_dropLast hr⟩
    intro f hf
    rcases List.mem_append.mp hf with h1 | h1
    · exact hh f h1
    · rw [List.mem_singleton.mp h1]
      exact hs

theorem load_keyframe_stateOK {s : AppState} (k : Int) (h : stateOK s) :
    stateOK (load_keyframe s k) := by
  obtain ⟨hs, hk, hh, hr⟩ := h
  unfold load_keyframe
  split
  · refine ⟨?_, ?_, ?_, ?_⟩
    · exact kget_frameOK k _ (kmapOK_kset _ _ _ hk hs)
    · exact kmapOK_kset _ _ _ hk hs
    · intro f hf
      rw [List.mem_singleton.mp hf]
      exact kget_frameOK k _ (kmapOK_kset _ _ _ hk hs)
    · intro f hf
      exact absurd hf (List.not_mem_nil f)
  · refine ⟨kget_frameOK k _ hk, hk, ?_, ?_⟩
    · intro f hf
      rw [List.mem_singleton.mp hf]
      exact kget_frameOK k _ hk
    · intro f hf
      exact absurd hf (List.not_mem_nil f)


theorem set_keyframe_stateOK {s : AppState} (k : Int) (h : stateOK s) :
    stateOK (set_keyframe s k) := by
  obtain ⟨hs, hk, hh, hr⟩ := h
  by_cases hne : s.currentKeyframe ≠ k
  · simp only [set_keyframe, if_pos hne]
    apply load_keyframe_stateOK
    exact ⟨hs, kmapOK_kset _ _ _ (kmapOK_kset _ _ _ hk hs) hs, hh, hr⟩
  · simp only [set_keyframe, if_neg hne]
    exact ⟨hs, kmapOK_kset _ _ _ hk hs, hh, hr⟩

theorem next_keyframe_stateOK {s : AppState} (h : stateOK s) :
    stateOK (next_keyframe s) := by
  obtain ⟨hs, hk, hh, hr⟩ := h
  exact load_keyframe_stateOK _ ⟨hs, hk, hh, hr⟩

theorem prev_keyframe_stateOK {s : AppState} (h : stateOK s) :
    stateOK (prev_keyframe s) := by
  obtain ⟨hs, hk, hh, hr⟩ := h
  unfold prev_keyframe
  split
  · exact load_keyframe_stateOK _ ⟨hs, hk, hh, hr⟩
  · exact ⟨hs, hk, hh, hr⟩

theorem clear_canvas_stateOK {s : AppState} (b : Bool) (h : stateOK s) :
    stateOK (clear_canvas s b) := by
  have h1 : stateOK (if b = true ∧ ¬s.strokes = [] then save_state s else s) := by
    split
    · exact save_state_stateOK h
    · exact h
  obtain ⟨hs1, hk1, hh1, hr1⟩ := h1
  simp only [clear_canvas]
  split
  · exact save_state_stateOK ⟨frameOK_nil, kmapOK_kdel _ _ hk1, hh1, hr1⟩
  · exact ⟨frameOK_nil, kmapOK_kdel _ _ hk1, hh1, hr1⟩

theorem end_stroke_stateOK {s : AppState} (cur : Stroke) (h : stateOK s) :
    stateOK (end_stroke s cur) := by
  obtain ⟨hs, hk, hh, hr⟩ := h
  unfold end_stroke
  split
  · rename_i hlen
    apply save_state_stateOK
    have hstrokes : frameOK (s.strokes ++ [cur]) := by
      apply frameOK_append hs
      intro st hst
      rw [List.mem_singleton.mp hst]
      omega
    exact ⟨hstrokes, kmapOK_kset _ _ _ hk hstrokes, hh, hr⟩
  · exact ⟨hs, hk, hh, hr⟩

theorem paste_strokes_stateOK {s : AppState}
    (payload : List (Option (List (Option Point)))) (h : stateOK s) :
    stateOK (paste_strokes s payload) := by
  obtain ⟨hs, hk, hh, hr⟩ := h
  simp only [paste_strokes]
  split
  · apply save_state_stateOK
    refine ⟨?_, hk, hh, hr⟩
    apply frameOK_append hs
    intro st hst
    obtain ⟨e, he, hfe⟩ := List.mem_filterMap.mp hst
    cases e with
    | none => exact Option.noConfusion hfe
    | some pts =>
      have hfe2 : (if 1 < (pts.filterMap id).length then
          some (pts.filterMap id) else none) = some st := hfe
      by_cases hlen : 1 < (pts.filterMap id).length
      · rw [if_pos hlen] at hfe2
        injection hfe2 with h2
        subst h2
        omega
      · rw [if_neg hlen] at hfe2
        exact Option.noConfusion hfe2
  · exact ⟨hs, hk, hh, hr⟩


theorem mem_segsAux_length (stroke : Stroke) :
    ∀ (rs : List (ℕ × ℕ)) (lastEnd : ℤ) (sg : Stroke),
      sg ∈ segsAux stroke lastEnd rs → 1 < sg.length := by
  intro rs
  induction rs with
  | nil =>
    intro lastEnd sg h
    rw [show segsAux stroke lastEnd []
        = (if lastEnd < (stroke.length : ℤ) - 1 then
            (if 1 < (stroke.drop (lastEnd + 1).toNat).length then
              [stroke.drop (lastEnd + 1).toNat]
            else [])
          else []) from rfl] at h
    split at h
    · split at h
      · rename_i hlen
        rw [List.mem_singleton.mp h]
        exact hlen
      · exact absurd h (List.not_mem_nil sg)
    · exact absurd h (List.not_mem_nil sg)
  | cons r rs ih =>
    intro lastEnd sg h
    obtain ⟨a, b⟩ := r
    rw [segsAux_cons] at h
    rcases List.mem_append.mp h with h1 | h1
    · split at h1
      · split at h1
        · rename_i hlen
          rw [List.mem_singleton.mp h1]
          exact hlen
        · exact absurd h1 (List.not_mem_nil sg)
      · exact absurd h1 (List.not_mem_nil sg)
    · exact ih _ _ h1

theorem mem_eraseStrokeOne {mk : Point → Bool} {st sg : Stroke}
    (h2 : 2 ≤ st.length) (h : sg ∈ eraseStrokeOne mk st) : 2 ≤ sg.length := by
  unfold eraseStrokeOne at h
  cases hm : markedIdx mk st with
  | nil =>
    rw [hm] at h
    have h' : sg ∈ [st] := h
    rw [List.mem_singleton.mp h']
    exact h2
  | cons x xs =>
    rw [hm] at h
    have h' : sg ∈ segsAux st (-1) (toRanges (x :: xs)) := h
    have := mem_segsAux_length st _ _ _ h'
    omega

theorem erase_core_stateOK {s : AppState} (cx cy : ℚ) (h : stateOK s) :
    stateOK (if s.strokes.any (fun st => !st.isEmpty) then
        { s with
          strokes := (s.strokes.map (eraseStrokeOne (inRadius cx cy eraser_radius))).flatten
          keyframes := kset s.keyframes s.currentKeyframe
            ((s.strokes.map (eraseStrokeOne (inRadius cx cy eraser_radius))).flatten)
          eraseStateSaved := false }
      else s) := by
  obtain ⟨hs, hk, hh, hr⟩ := h
  have hnew : frameOK ((s.strokes.map (eraseStrokeOne (inRadius cx cy eraser_radius))).flatten) := by
    intro st hst
    rw [List.mem_flatten] at hst
    obtain ⟨l, hl, hstl⟩ := hst
    rw [List.mem_map] at hl
    obtain ⟨st0, hst0, rfl⟩ := hl
    exact mem_eraseStrokeOne (hs st0 hst0) hstl
  split
  · exact ⟨hnew, kmapOK_kset _ _ _ hk hnew, hh, hr⟩
  · exact ⟨hs, hk, hh, hr⟩

theorem erase_at_point_stateOK {s0 : AppState} (cx cy : ℚ) (h : stateOK s0) :
    stateOK (erase_at_point s0 cx cy) := by
  have h1 : stateOK (if !s0.eraseStateSaved then
      { save_state s0 with eraseStateSaved := true } else s0) := by
    split
    · obtain ⟨a, b, c, d⟩ := save_state_stateOK h
      exact ⟨a, b, c, d⟩
    · exact h
  exact erase_core_stateOK cx cy h1

theorem kmapOK_foldl_kset (g : ℕ → Int) (v : ℕ → Frame)
    (hv : ∀ i, frameOK (v i)) :
    ∀ (l : List ℕ) (m : KMap), kmapOK m →
      kmapOK (l.foldl (fun m i0 => kset m (g i0) (v i0)) m) := by
  intro l
  induction l with
  | nil => intro m hm; exact hm
  | cons i tl ih =>
    intro m hm
    rw [List.foldl_cons]
    exact ih _ (kmapOK_kset _ _ _ hm (hv i))

theorem interpolate_core_stateOK (engine : Frame → Frame → ℚ → Frame)
    (heng : ∀ f1 f2 q, frameOK f1 → frameOK f2 → frameOK (engine f1 f2 q))
    {s : AppState} (a b : Int) (n : ℕ) (h : stateOK s) :
    stateOK (if (kget s.keyframes a).isNone ∨ (kget s.keyframes b).isNone then s
      else
        { s with
          keyframes :=
            (List.range n).foldl
              (fun m i0 =>
                kset m (interpIndex a b n (i0 + 1))
                  (engine ((kget s.keyframes a).getD []) ((kget s.keyframes b).getD [])
                    (((i0 + 1 : ℕ) : ℚ) / ((n : ℚ) + 1))))
              s.keyframes }) := by
  obtain ⟨hs, hk, hh, hr⟩ := h
  split
  · exact ⟨hs, hk, hh, hr⟩
  · exact ⟨hs,
      kmapOK_foldl_kset _ _
        (fun i => heng _ _ _ (kget_frameOK a _ hk) (kget_frameOK b _ hk))
        (List.range n) _ hk,
      hh, hr⟩

theorem interpolate_frames_stateOK (engine : Frame → Frame → ℚ → Frame)
    (heng : ∀ f1 f2 q, frameOK f1 → frameOK f2 → frameOK (engine f1 f2 q))
    {s : AppState} (a b : Int) (n : ℕ) (h : stateOK s) :
    stateOK (interpolate_frames engine s a b n) := by
  have h1 : stateOK (if s.strokes ≠ [] then save_state s else s) := by
    split
    · exact save_state_stateOK h
    · exact h
  exact interpolate_core_stateOK engine heng a b n h1

theorem length_singleton_flatMap (f : ℕ → ℚ) :
    ∀ l : List ℕ, (l.flatMap (fun a => [f a])).length = l.length := by
  intro l
  induction l with
  | nil => rfl
  | cons a t ih =>
    rw [List.flatMap_cons, List.length_append, ih]
    simp [Nat.add_comm]

theorem linspace01_length (n : ℕ) : (linspace01 n).length = n := by
  show (List.map _ _).length = n
  rw [List.length_map]
  show ((List.range n).flatMap (fun a => [(a : ℚ)])).length = n
  rw [length_singleton_flatMap, List.length_range]

theorem extract_one_length (snap : Point → Option Point)
    (norm : Point → Point → ℚ) (sStroke eStroke : Stroke) (q : ℚ)
    (h1 : 2 ≤ sStroke.length) (h2 : 2 ≤ eStroke.length) :
    2 ≤ (if sStroke.length = eStroke.length then
        (sStroke.zip eStroke).map (fun pe =>
          blendSnap snap
            ((1 - q) * pe.1.1 + q * pe.2.1,
             (1 - q) * pe.1.2 + q * pe.2.2))
      else
        (linspace01 (max sStroke.length eStroke.length)).map (fun t =>
          let sp := find_point_at_param norm sStroke t
          let ep := find_point_at_param norm eStroke t
          ((1 - q) * sp.1 + q * ep.1,
           (1 - q) * sp.2 + q * ep.2))).length := by
  split
  · rw [List.length_map, List.length_zip]
    omega
  · rw [List.length_map, linspace01_length]
    omega

theorem extract_strokes_frameOK (snap : Point → Option Point)
    (norm : Point → Point → ℚ) (f1 f2 : Frame) (q : ℚ)
    (h1 : frameOK f1) (h2 : frameOK f2) :
    frameOK (extract_strokes_from_image snap norm f1 f2 q) := by
  intro st hst
  unfold extract_strokes_from_image at hst
  rw [List.mem_map] at hst
  obtain ⟨j, hj, rfl⟩ := hst
  rw [List.mem_range] at hj
  have hjs : j < f1.length := lt_of_lt_of_le hj (min_le_left _ _)
  have hje : j < f2.length := lt_of_lt_of_le hj (min_le_right _ _)
  have hm1 : f1.getD j [] ∈ f1 := by
    rw [List.getD_eq_getElem f1 [] hjs]
    exact List.getElem_mem hjs
  have hm2 : f2.getD j [] ∈ f2 := by
    rw [List.getD_eq_getElem f2 [] hje]
    exact List.getElem_mem hje
  exact extract_one_length snap norm (f1.getD j []) (f2.getD j []) q
    (h1 _ hm1) (h2 _ hm2)

/-- C8: the at-least-two-points invariant.  stateOK says every stroke in
the Working Buffer, in every keyframe map entry and in every undo/redo
snapshot has at least 2 points.  It holds initially and is preserved by
every mutating operation: finalizing a stroke (which drops accumulators
shorter than 2), erasing (kept segments are guarded by length > 1),
pasting (filtered strokes shorter than 2 are dropped), interpolating with
any engine whose output frames satisfy the invariant -- which the modelled
stroke reconstruction does, since its strokes have the matched stroke's
point count or the max of the two counts -- clearing, the history
operations and the keyframe navigation operations. -/
theorem C8_min_two_point_invariant :
    stateOK initState
    ∧ (∀ (s : AppState) (cur : Stroke), stateOK s → stateOK (end_stroke s cur))
    ∧ (∀ (s : AppState) (cx cy : ℚ), stateOK s → stateOK (erase_at_point s cx cy))
    ∧ (∀ (s : AppState) (payload : List (Option (List (Option Point)))),
        stateOK s → stateOK (paste_strokes s payload))
    ∧ (∀ (engine : Frame → Frame → ℚ → Frame) (s : AppState) (a b : Int) (n : ℕ),
        (∀ f1 f2 q, frameOK f1 → frameOK f2 → frameOK (engine f1 f2 q)) →
        stateOK s → stateOK (interpolate_frames engine s a b n))
    ∧ (∀ (snap : Point → Option Point) (norm : Point → Point → ℚ)
        (f1 f2 : Frame) (q : ℚ), frameOK f1 → frameOK f2 →
        frameOK (extract_strokes_from_image snap norm f1 f2 q))
    ∧ (∀ (s : AppState) (b : Bool), stateOK s → stateOK (clear_canvas s b))
    ∧ (∀ (s : AppState), stateOK s →
        stateOK (save_state s) ∧ stateOK (undo s) ∧ stateOK (redo s))
    ∧ (∀ (s : AppState) (k : Int), stateOK s →
        stateOK (load_keyframe s k) ∧ stateOK (set_keyframe s k))
    ∧ (∀ (s : AppState), stateOK s →
        stateOK (next_keyframe s) ∧ stateOK (prev_keyframe s)) := by
  refine ⟨?_, ?_, ?_, ?_, ?_, ?_, ?_, ?_, ?_, ?_⟩
  · refine ⟨frameOK_nil, ?_, ?_, ?_⟩
    · intro e he
      exact absurd he (List.not_mem_nil e)
    · intro f hf
      rw [List.mem_singleton.mp hf]
      exact frameOK_nil
    · intro f hf
      exact absurd hf (List.not_mem_nil f)
  · exact fun s cur h => end_stroke_stateOK cur h
  · exact fun s cx cy h => erase_at_point_stateOK cx cy h
  · exact fun s payload h => paste_strokes_stateOK payload h
  · exact fun engine s a b n heng h => interpolate_frames_stateOK engine heng a b n h
  · exact fun snap norm f1 f2 q h1 h2 => extract_strokes_frameOK snap norm f1 f2 q h1 h2
  · exact fun s b h => clear_canvas_stateOK b h
  · exact fun s h => ⟨save_state_stateOK h, undo_stateOK h, redo_stateOK h⟩
  · exact fun s k h => ⟨load_keyframe_stateOK k h, set_keyframe_stateOK k h⟩
  · exact fun s h => ⟨next_keyframe_stateOK h, prev_keyframe_stateOK h⟩

theorem C8_min_two_point_invariant_witness :
    stateOK (end_stroke initState [(0, 0), (1, 1)])
    ∧ stateOK (erase_at_point initState 0 0) :=
  ⟨C8_min_two_point_invariant.2.1 initState [(0, 0), (1, 1)]
      C8_min_two_point_invariant.1,
    C8_min_two_point_invariant.2.2.1 initState 0 0
      C8_min_two_point_invariant.1⟩

end Optiflow













